import Mathlib

/-!
# Verification of the Cevia n-gram language model core

This development shallowly embeds the C sources of the Cevia stateless
n-gram language model (tokenizer, vocabulary, n-gram trie, binary
persistence, predictor, generator and the public API wrapper) as
executable Lean definitions, and settles a list of claims about them.

Modelling conventions:
* Byte strings (`char*` data) are `List Nat`, one entry per byte; the C
  NUL terminator corresponds to the end of the list.
* `uint32_t` / `uint64_t` quantities are `Nat`.  Overflow is modelled
  with an explicit `% 2^32` exactly where the C program relies on the
  wrap-around (the float-to-`uint32_t` score cast); elsewhere claims
  carry explicit bounds hypotheses keeping all values in machine range.
* `float` score arithmetic is modelled over `ℚ`.  The transcendental
  `logf` has no exact rational counterpart, so score-level functions
  take the log function as an explicit parameter `flog : ℚ → ℚ`;
  theorems quantify over it and concrete evaluations use the rational
  approximation `logApprox` defined below.
* Memory-allocation failure paths (`malloc` returning NULL) are not
  modelled: the embedding describes the ideal-memory executions.
-/

namespace Cevia

/-! ## Byte classification (ctype.h, "C" locale, unsigned char) -/

/-- `isspace` on an unsigned char in the "C" locale: space and 0x09–0x0D. -/
def isSpaceByte (c : Nat) : Bool := c == 32 || (9 ≤ c && c ≤ 13)

/-- `ispunct` on an unsigned char in the "C" locale: the four printable
ASCII ranges that are neither alphanumeric nor space. -/
def isPunctByte (c : Nat) : Bool :=
  (33 ≤ c && c ≤ 47) || (58 ≤ c && c ≤ 64) || (91 ≤ c && c ≤ 96) || (123 ≤ c && c ≤ 126)

/-- A separator byte for the tokenizer: whitespace or ASCII punctuation. -/
def isSep (c : Nat) : Bool := isSpaceByte c || isPunctByte c

/-- `tolower` on an unsigned char in the "C" locale: fold A–Z to a–z. -/
def toLowerByte (c : Nat) : Nat := if 65 ≤ c && c ≤ 90 then c + 32 else c

/-! ## Tokenizer (`addToken`, `tokenizeLine`)

A `Sentence` is the list of its tokens, each token a byte list.
`MaxTokens = 128`, `MaxWordLen = 32` (so tokens hold at most 31 bytes). -/

/-- `addToken`: append a word to the sentence if fewer than 128 tokens are
present; the copy keeps at most `MaxWordLen - 1 = 31` bytes. -/
def addToken (s : List (List Nat)) (w : List Nat) : List (List Nat) :=
  if s.length < 128 then s ++ [w.take 31] else s

/-- The scanning loop of `tokenizeLine`.  `word` is the current partial
word (already lowercased), `acc` the sentence built so far.  The C loop
condition `line[i] != '\0' && j < MaxWordLen - 1` is checked before each
byte: once the partial word holds 31 bytes the loop exits, flushing the
word and discarding the remainder of the line. -/
def tokenizeAux : List Nat → List Nat → List (List Nat) → List (List Nat)
  | [], word, acc => if word.isEmpty then acc else addToken acc word
  | c :: rest, word, acc =>
    if 31 ≤ word.length then (if word.isEmpty then acc else addToken acc word)
    else if isSep c then tokenizeAux rest [] (if word.isEmpty then acc else addToken acc word)
    else tokenizeAux rest (word ++ [toLowerByte c]) acc

/-- `tokenizeLine`: split a line of bytes into lowercased word tokens. -/
def tokenizeLine (line : List Nat) : List (List Nat) := tokenizeAux line [] []

/-! ## Specification-side tokenizer (for claim C6)

Modelled from the spec: "a token is a maximal run of bytes that are
neither whitespace nor ASCII punctuation", each run lowercased, runs
exceeding 31 bytes truncated, tokens past the 128th discarded. -/

/-- Fuelled splitter behind `specRuns` (the fuel, instantiated with the
line length, only makes the recursion structural). -/
def specRunsF : Nat → List Nat → List (List Nat)
  | _, [] => []
  | 0, _ :: _ => []
  | fuel + 1, c :: rest =>
    if isSep c then specRunsF fuel rest
    else (c :: rest.takeWhile (fun b => !isSep b)) ::
         specRunsF fuel (rest.dropWhile (fun b => !isSep b))

/-- Maximal non-separator runs of a byte line, in order (raw bytes). -/
def specRuns (l : List Nat) : List (List Nat) := specRunsF l.length l

/-- The tokenizer behaviour described by the spec sentence of claim C6:
every maximal run, in order, lowercased, truncated to 31 bytes, with
only tokens past the 128th discarded. -/
def specTokenize (line : List Nat) : List (List Nat) :=
  ((specRuns line).map (fun w => (w.map toLowerByte).take 31)).take 128

/-! ## Hash map (`hashMapGet`, `hashMapPut`)

The C hash map is a fixed-size bucket table with separate chaining and
unique keys (`hashMapPut` updates an existing key in place).  Its only
observable behaviour through `hashMapGet` is that of an association
list with unique keys, which is how we model it; `hashMapGet` returns
0 when the key is absent, aliasing the `<unk>` id. -/

/-- `hashMapGet`: value of `key`, or 0 when the key is not present. -/
def hashMapGet (m : List (List Nat × Nat)) (key : List Nat) : Nat :=
  match m.find? (fun kv => kv.1 == key) with
  | some kv => kv.2
  | none => 0

/-- `hashMapPut`: update the value of an existing key, else insert. -/
def hashMapPut (m : List (List Nat × Nat)) (key : List Nat) (v : Nat) : List (List Nat × Nat) :=
  if m.any (fun kv => kv.1 == key) then
    m.map (fun kv => if kv.1 == key then (kv.1, v) else kv)
  else (key, v) :: m

/-! ## Vocabulary (`vocab.c`) -/

/-- The vocabulary: token-to-id map plus the dense id-to-token array.
The C `size` field always equals the number of stored tokens
(`idToToken.length` here); `capacity` only governs reallocation and is
not modelled. -/
structure Vocabulary where
  tokenToId : List (List Nat × Nat)
  idToToken : List (List Nat)
  deriving Repr, DecidableEq

/-- `getOrAddToken`: return the existing id when `hashMapGet` yields a
non-zero id, else append the token with the next free id (`size`).
Note: a present token whose stored id is 0 — the reserved `<unk>` —
is indistinguishable from an absent one and is added again. -/
def getOrAddToken (v : Vocabulary) (token : List Nat) : Vocabulary × Nat :=
  let id := hashMapGet v.tokenToId token
  if id ≠ 0 then (v, id)
  else
    let newId := v.idToToken.length
    ({ tokenToId := hashMapPut v.tokenToId token newId,
       idToToken := v.idToToken ++ [token] }, newId)

/-- The reserved token byte strings. -/
def unkTok : List Nat := [60, 117, 110, 107, 62]
def bosTok : List Nat := [60, 115, 62]
def eosTok : List Nat := [60, 47, 115, 62]

/-- `createVocabulary`: empty vocabulary with the three reserved tokens
`<unk>`, `<s>`, `</s>` inserted first (ids 0, 1, 2). -/
def createVocabulary : Vocabulary :=
  let v : Vocabulary := { tokenToId := [], idToToken := [] }
  let v := (getOrAddToken v unkTok).1
  let v := (getOrAddToken v bosTok).1
  (getOrAddToken v eosTok).1

/-- `getTokenById`: bounds-checked id-to-token lookup; out-of-range ids
yield `<unk>`. -/
def getTokenById (v : Vocabulary) (id : Nat) : List Nat :=
  match v.idToToken.get? id with
  | some t => t
  | none => unkTok

/-! ## N-gram trie (`ngram.c`) -/

/-- A trie node: `(tokenId, count, children)`.  The C sibling chain
(`next` pointers) is the `children` list, in insertion order (new
children are appended at the end of the chain). -/
inductive NgramNode : Type where
  | mk : Nat → Nat → List NgramNode → NgramNode
  deriving Repr

def NgramNode.tokenId : NgramNode → Nat
  | .mk t _ _ => t

def NgramNode.count : NgramNode → Nat
  | .mk _ c _ => c

def NgramNode.children : NgramNode → List NgramNode
  | .mk _ _ cs => cs

/-- Walk a sibling chain for the node carrying `tokenId = t`. -/
def findChild : List NgramNode → Nat → Option NgramNode
  | [], _ => none
  | n :: ns, t => if n.tokenId = t then some n else findChild ns t

/-- Walk a non-empty path from a sibling chain down the trie. -/
def findNodePath : List NgramNode → List Nat → Option NgramNode
  | _, [] => none
  | ns, t :: rest =>
    match findChild ns t with
    | none => none
    | some n => if rest.isEmpty then some n else findNodePath n.children rest

/-- The count stored at the end of a path, 0 when the path is absent. -/
def getPath (ns : List NgramNode) (p : List Nat) : Nat :=
  match findNodePath ns p with
  | some n => n.count
  | none => 0

/-- Rewrite the first node of a sibling chain carrying `tokenId = t`
with `f`; when no such node exists, append `mk` at the end of the
chain (where C links the freshly `calloc`ed node). -/
def updateFirst (t : Nat) (f : NgramNode → NgramNode) (mk : NgramNode) :
    List NgramNode → List NgramNode
  | [] => [mk]
  | n :: ns => if n.tokenId = t then f n :: ns else n :: updateFirst t f mk ns

/-- The node-walking core of `addNgram`/`addNgramWithCount`: walk the
path `toks` from the sibling chain `ns`, creating missing nodes (count
0, as `calloc` zero-fills) at the end of each sibling chain, and add
`delta` to the final node's count. -/
def addNgramList (delta : Nat) : List Nat → List NgramNode → List NgramNode
  | [], ns => ns
  | [t], ns =>
    updateFirst t (fun n => .mk n.tokenId (n.count + delta) n.children) (.mk t delta []) ns
  | t :: u :: rest, ns =>
    updateFirst t (fun n => .mk n.tokenId n.count (addNgramList delta (u :: rest) n.children))
      (.mk t 0 (addNgramList delta (u :: rest) [])) ns

/-- The n-gram index: the root's children plus `maxN` and the running
total of added n-grams. -/
structure NgramIndex where
  rootChildren : List NgramNode
  maxN : Nat
  totalNgrams : Nat
  deriving Repr

/-- `createNgramIndex` (callers guarantee `maxN ≥ 1`; C returns NULL
otherwise). -/
def createNgramIndex (maxN : Nat) : NgramIndex :=
  { rootChildren := [], maxN := maxN, totalNgrams := 0 }

/-- `addNgram`: insert the first `n` ids of `tokens` and increment the
final count.  `n` outside `1..maxN` is a no-op.  C reads `tokens[0..n)`
unconditionally; the embedding restricts to the defined case
`n ≤ tokens.length` (shorter inputs would be an out-of-bounds read). -/
def addNgram (idx : NgramIndex) (tokens : List Nat) (n : Nat) : NgramIndex :=
  if n < 1 || idx.maxN < n || tokens.length < n then idx
  else { idx with rootChildren := addNgramList 1 (tokens.take n) idx.rootChildren,
                  totalNgrams := idx.totalNgrams + 1 }

/-- `addNgramWithCount`: as `addNgram` but adds `count`; `count = 0` is
a no-op.  Used only while loading from disk. -/
def addNgramWithCount (idx : NgramIndex) (tokens : List Nat) (n : Nat) (count : Nat) :
    NgramIndex :=
  if n < 1 || idx.maxN < n || count == 0 || tokens.length < n then idx
  else { idx with rootChildren := addNgramList count (tokens.take n) idx.rootChildren,
                  totalNgrams := idx.totalNgrams + count }

/-- `getNgramCount`: count of the n-gram `tokens[0..n)`, 0 when absent
or when `n` is outside `1..maxN` (same out-of-bounds restriction as
`addNgram`). -/
def getNgramCount (idx : NgramIndex) (tokens : List Nat) (n : Nat) : Nat :=
  if n < 1 || idx.maxN < n || tokens.length < n then 0
  else getPath idx.rootChildren (tokens.take n)

/-- `findPrefixNode`: the node at depth `n` spelling `tokens[0..n)`. -/
def findPrefixNode (idx : NgramIndex) (tokens : List Nat) (n : Nat) : Option NgramNode :=
  if n < 1 || idx.maxN < n || tokens.length < n then none
  else findNodePath idx.rootChildren (tokens.take n)

/-- `updateNgrams`: for every start position `i` and every order
`n ∈ 1..maxN` with `i + n ≤ length`, add the n-gram starting at `i`. -/
def updateNgrams (idx : NgramIndex) (tokens : List Nat) : NgramIndex :=
  (List.range tokens.length).foldl
    (fun acc i =>
      (List.range acc.maxN).foldl
        (fun acc2 j =>
          if i + (j + 1) ≤ tokens.length then addNgram acc2 (tokens.drop i) (j + 1) else acc2)
        acc)
    idx

/-! ## Language model (`lmModel.c`) -/

/-- The model tuple.  The pattern index (`model->patterns`) is written
during training but never read by prediction, generation, persistence
or the public queries, so it is omitted from the embedding. -/
structure LMModel where
  vocab : Vocabulary
  ngrams : NgramIndex
  maxN : Nat
  totalTokens : Nat
  deriving Repr

/-- `createLMModel` (callers guarantee `maxN ≥ 1`; C returns NULL
otherwise). -/
def createLMModel (maxN : Nat) : LMModel :=
  { vocab := createVocabulary, ngrams := createNgramIndex maxN,
    maxN := maxN, totalTokens := 0 }

/-- `vocab->size` as queried by `cevia_vocab_size`. -/
def vocabSize (m : LMModel) : Nat := m.vocab.idToToken.length

/-- One line of `trainFromFile`'s reading loop: tokenize, skip empty
lines, assign ids through `getOrAddToken` (counting every token into
`totalTokens`), then update the n-gram counts. -/
def trainLine (m : LMModel) (line : List Nat) : LMModel :=
  let toks := tokenizeLine line
  if toks.isEmpty then m
  else
    let step := toks.foldl
      (fun (acc : Vocabulary × List Nat) t =>
        let r := getOrAddToken acc.1 t
        (r.1, acc.2 ++ [r.2]))
      (m.vocab, [])
    { vocab := step.1,
      ngrams := updateNgrams m.ngrams step.2,
      maxN := m.maxN,
      totalTokens := m.totalTokens + toks.length }

/-- `trainFromFile`, with the corpus file abstracted as its list of
newline-stripped lines (C reads them with `fgets`, 4095 bytes at a
time; lines of the modelled corpora fit in one read). -/
def trainFromFile (m : LMModel) (lines : List (List Nat)) : LMModel :=
  lines.foldl trainLine m

/-! ## Binary persistence (`saveModel` / `loadModel`, `saveVocabulary` /
`loadVocabulary`)

Files are byte lists; all integers little-endian, unsigned, untagged.
`fwrite` of a `w`-byte integer writes its value modulo `2^(8w)`. -/

/-- Little-endian encoding of `n` on `w` bytes (value taken mod `2^(8w)`). -/
def leBytes : Nat → Nat → List Nat
  | 0, _ => []
  | w + 1, n => (n % 256) :: leBytes w (n / 256)

/-- Read a `w`-byte little-endian integer; `none` on a short read. -/
def readLE : Nat → List Nat → Option (Nat × List Nat)
  | 0, bs => some (0, bs)
  | _ + 1, [] => none
  | w + 1, b :: bs =>
    match readLE w bs with
    | some (n, rest) => some (b + 256 * n, rest)
    | none => none

/-- Read exactly `n` raw bytes; `none` on a short read. -/
def readExact : Nat → List Nat → Option (List Nat × List Nat)
  | 0, bs => some ([], bs)
  | _ + 1, [] => none
  | n + 1, b :: bs =>
    match readExact n bs with
    | some (tok, rest) => some (b :: tok, rest)
    | none => none

/-- One `.vocab` record: `u16 len` then the raw bytes. -/
def encToken (t : List Nat) : List Nat := leBytes 2 t.length ++ t

/-- `saveVocabulary`: `u32 size` then one record per token, in id order. -/
def saveVocabBytes (v : Vocabulary) : List Nat :=
  leBytes 4 v.idToToken.length ++ (v.idToToken.map encToken).flatten

/-- The token-reading loop of `loadVocabulary`: read up to `n` records,
returning those read (C stops at the first short read and returns with
the table filled so far). -/
def readTokens : Nat → List Nat → List (List Nat) × List Nat
  | 0, bs => ([], bs)
  | n + 1, bs =>
    match readLE 2 bs with
    | none => ([], bs)
    | some (len, bs1) =>
      match readExact len bs1 with
      | none => ([], bs)
      | some (tok, bs2) =>
        let r := readTokens n bs2
        (tok :: r.1, r.2)

/-- `loadVocabulary`: discard the current contents, read `u32 size` and
then `size` records, rebuilding the hash map with `hashMapPut token i`
in id order.  C leaves a partially-filled (spec: unspecified) table on
a short read; the embedding keeps the records read so far. -/
def loadVocabulary (bs : List Nat) : Vocabulary :=
  match readLE 4 bs with
  | none => { tokenToId := [], idToToken := [] }
  | some (size, bs1) =>
    let toks := (readTokens size bs1).1
    { idToToken := toks,
      tokenToId := (toks.zip (List.range toks.length)).foldl
        (fun m p => hashMapPut m p.1 p.2) [] }

/-- The unigram enumeration produced by the `ngramIterator`/`nextNgram`
pair: the root's children in stored order as `(tokenId, count)` pairs.
(`nextNgram` keeps its cursor in a `static` variable; every use in the
source runs the iterator to completion, so it behaves as this list.) -/
def uniPairs (idx : NgramIndex) : List (Nat × Nat) :=
  idx.rootChildren.map (fun n => (n.tokenId, n.count))

/-- The bigram records written by `saveModel`: for every depth-1 node
and each of its children, `(first, second, count)` in stored order. -/
def biTriples (idx : NgramIndex) : List (Nat × Nat × Nat) :=
  idx.rootChildren.flatMap
    (fun a => a.children.map (fun b => (a.tokenId, b.tokenId, b.count)))

/-- The trigram records written by `saveModel`. -/
def triQuads (idx : NgramIndex) : List (Nat × Nat × Nat × Nat) :=
  idx.rootChildren.flatMap
    (fun a => a.children.flatMap
      (fun b => b.children.map (fun c => (a.tokenId, b.tokenId, c.tokenId, c.count))))

/-- The `.uni` file: `u64 totalTokens`, `u32 unigramCount`, then
`(u32 tokenId, u32 count)` per unigram. -/
def saveUniBytes (m : LMModel) : List Nat :=
  leBytes 8 m.totalTokens ++ leBytes 4 (uniPairs m.ngrams).length ++
    ((uniPairs m.ngrams).map (fun p => leBytes 4 p.1 ++ leBytes 4 p.2)).flatten

/-- The `.bi` file: `u32 bigramCount` then `(u32, u32, u32)` records. -/
def saveBiBytes (m : LMModel) : List Nat :=
  leBytes 4 (biTriples m.ngrams).length ++
    ((biTriples m.ngrams).map
      (fun t => leBytes 4 t.1 ++ leBytes 4 t.2.1 ++ leBytes 4 t.2.2)).flatten

/-- The `.tri` file: `u32 trigramCount` then `(u32, u32, u32, u32)`
records. -/
def saveTriBytes (m : LMModel) : List Nat :=
  leBytes 4 (triQuads m.ngrams).length ++
    ((triQuads m.ngrams).map
      (fun t => leBytes 4 t.1 ++ leBytes 4 t.2.1 ++ leBytes 4 t.2.2.1 ++
        leBytes 4 t.2.2.2)).flatten

/-- `saveModel`: the four files (`.vocab`, `.uni`, `.bi`, `.tri`). -/
def saveModelBytes (m : LMModel) : List Nat × List Nat × List Nat × List Nat :=
  (saveVocabBytes m.vocab, saveUniBytes m, saveBiBytes m, saveTriBytes m)

/-- Unigram record-reading loop of `loadModel`: read up to `n`
`(token, count)` pairs, stopping at the first short read. -/
def readPairs : Nat → List Nat → List (Nat × Nat)
  | 0, _ => []
  | n + 1, bs =>
    match readLE 4 bs with
    | none => []
    | some (t, bs1) =>
      match readLE 4 bs1 with
      | none => []
      | some (c, bs2) => (t, c) :: readPairs n bs2

/-- Bigram record-reading loop of `loadModel`. -/
def readTriples : Nat → List Nat → List (Nat × Nat × Nat)
  | 0, _ => []
  | n + 1, bs =>
    match readLE 4 bs with
    | none => []
    | some (a, bs1) =>
      match readLE 4 bs1 with
      | none => []
      | some (b, bs2) =>
        match readLE 4 bs2 with
        | none => []
        | some (c, bs3) => (a, b, c) :: readTriples n bs3

/-- Trigram record-reading loop of `loadModel`. -/
def readQuads : Nat → List Nat → List (Nat × Nat × Nat × Nat)
  | 0, _ => []
  | n + 1, bs =>
    match readLE 4 bs with
    | none => []
    | some (a, bs1) =>
      match readLE 4 bs1 with
      | none => []
      | some (b, bs2) =>
        match readLE 4 bs2 with
        | none => []
        | some (c, bs3) =>
          match readLE 4 bs3 with
          | none => []
          | some (d, bs4) => (a, b, c, d) :: readQuads n bs4

/-- The `.uni` section of `loadModel`: read `totalTokens` and the
unigram records, adding each through `addNgramWithCount`. -/
def loadUni (m : LMModel) (bs : List Nat) : LMModel :=
  match readLE 8 bs with
  | none => m
  | some (tt, bs1) =>
    match readLE 4 bs1 with
    | none => { m with totalTokens := tt }
    | some (cnt, bs2) =>
      { m with totalTokens := tt,
               ngrams := (readPairs cnt bs2).foldl
                 (fun g p => addNgramWithCount g [p.1] 1 p.2) m.ngrams }

/-- The `.bi` section of `loadModel`. -/
def loadBi (m : LMModel) (bs : List Nat) : LMModel :=
  match readLE 4 bs with
  | none => m
  | some (cnt, bs1) =>
    let g := (readTriples cnt bs1).foldl
      (fun g t => addNgramWithCount g [t.1, t.2.1] 2 t.2.2) m.ngrams
    { m with ngrams := g }

/-- The `.tri` section of `loadModel`. -/
def loadTri (m : LMModel) (bs : List Nat) : LMModel :=
  match readLE 4 bs with
  | none => m
  | some (cnt, bs1) =>
    let g := (readQuads cnt bs1).foldl
      (fun g t => addNgramWithCount g [t.1, t.2.1, t.2.2.1] 3 t.2.2.2) m.ngrams
    { m with ngrams := g }

/-- `loadModel`: replace the vocabulary from the `.vocab` file, then add
the `.uni`, `.bi` and `.tri` tables.  All four files present (missing
files are skipped in C; the round-trip claims provide all four). -/
def loadModel (m : LMModel) (vb ub bb tb : List Nat) : LMModel :=
  loadTri (loadBi (loadUni { m with vocab := loadVocabulary vb } ub) bb) tb

/-! ## Predictor (`predictNextToken`)

Score arithmetic is over `ℚ` (exact stand-in for `float`); `logf` is
the explicit parameter `flog`.  The C cast `(uint32_t)(score * 1e6)`
truncates toward zero and, for negative values, wraps modulo `2^32` on
the target platform (the ISO-undefined case the spec's §9 score-sorting
note describes); `castU32` models exactly that. -/

/-- Truncation of a rational toward zero, as a C float-to-int cast. -/
def qtrunc (q : ℚ) : Int := q.num.tdiv q.den

/-- `(uint32_t)(score * 1e6)`: scale, truncate toward zero, wrap mod
`2^32`. -/
def castU32 (q : ℚ) : Nat := ((qtrunc (q * 1000000)) % (2 ^ 32 : Int)).toNat

/-- Look up the ids of a token list, failing as soon as any lookup
returns 0 (`<unk>` aliasing: unknown and literal `<unk>` both skip). -/
def lookupAll (v : Vocabulary) : List (List Nat) → Option (List Nat)
  | [] => some []
  | t :: rest =>
    let id := hashMapGet v.tokenToId t
    if id = 0 then none
    else
      match lookupAll v rest with
      | none => none
      | some ids => some (id :: ids)

/-- Find-or-insert into the candidate table (`MaxCandidates = 100`);
an existing entry accumulates, a new one is appended while the table
has fewer than 100 entries. -/
def addCand (cands : List (Nat × ℚ)) (t : Nat) (contrib : ℚ) : List (Nat × ℚ) :=
  if cands.any (fun c => c.1 == t) then
    cands.map (fun c => if c.1 == t then (c.1, c.2 + contrib) else c)
  else if cands.length < 100 then cands ++ [(t, contrib)]
  else cands

/-- One iteration of the suffix loop (`for L = maxContext down to 1`):
build the suffix ids, find its trie node, and accumulate the weighted
normalized child counts.  The denominator is a `uint32_t` sum (mod
`2^32`). -/
def accumForL (m : LMModel) (toks : List (List Nat)) (maxContext L : Nat)
    (cands : List (Nat × ℚ)) : List (Nat × ℚ) :=
  match lookupAll m.vocab (toks.drop (toks.length - L)) with
  | none => cands
  | some ids =>
    match findPrefixNode m.ngrams ids L with
    | none => cands
    | some node =>
      if node.children.isEmpty then cands
      else
        let denom : Nat := (node.children.map (fun ch => ch.count)).sum % 2 ^ 32
        if denom = 0 then cands
        else
          let w : ℚ := (L : ℚ) * (85 / 100 : ℚ) ^ (maxContext - L)
          node.children.foldl
            (fun cs ch => addCand cs ch.tokenId (w * ((ch.count : ℚ) / (denom : ℚ))))
            cands

/-- The full candidate-accumulation loop, longest suffix first. -/
def accumulateCands (m : LMModel) (toks : List (List Nat)) : List (Nat × ℚ) :=
  let maxContext := min toks.length (m.maxN - 1)
  (List.range maxContext).foldl
    (fun cs i => accumForL m toks maxContext (maxContext - i) cs) []

/-- Add the unigram prior `Beta * log (max p 1e-9)` to every candidate
(`Beta = 0.10`); skipped when `totalTokens = 0`. -/
def addPrior (flog : ℚ → ℚ) (m : LMModel) (cands : List (Nat × ℚ)) : List (Nat × ℚ) :=
  if m.totalTokens = 0 then cands
  else
    cands.map (fun c =>
      let u := getNgramCount m.ngrams [c.1] 1
      let p : ℚ := if 0 < u then (u : ℚ) / (m.totalTokens : ℚ)
                   else 1 / ((m.totalTokens : ℚ) + 1)
      (c.1, c.2 + (1 / 10 : ℚ) * flog (max p (1 / 1000000000))))

/-- Insert into a list kept in descending key order (`compareTokenCountDesc`
on the second component); ties keep existing elements first.  `qsort` is
unspecified on ties, and this insertion sort realises one of its
admissible outcomes. -/
def insDesc (x : Nat × Nat) : List (Nat × Nat) → List (Nat × Nat)
  | [] => [x]
  | y :: ys => if x.2 ≤ y.2 then y :: insDesc x ys else x :: y :: ys

/-- Sort `(token, key)` pairs by descending key. -/
def sortDescByKey : List (Nat × Nat) → List (Nat × Nat)
  | [] => []
  | x :: xs => insDesc x (sortDescByKey xs)

/-- The sorted candidate table: final scores cast through the 32-bit
key `(uint32_t)(score * 1e6)` and ordered by descending key. -/
def rankedCandidates (flog : ℚ → ℚ) (m : LMModel) (toks : List (List Nat)) :
    List (Nat × Nat) :=
  sortDescByKey
    ((addPrior flog m (accumulateCands m toks)).map (fun c => (c.1, castU32 c.2)))

/-- Output ids of the candidate branch: the top `k` sorted candidates,
zero-filled beyond `candCount`. -/
def candTops (ranked : List (Nat × Nat)) (k : Nat) : List Nat :=
  (ranked.take k).map (fun c => c.1) ++ List.replicate (k - ranked.length) 0

/-- Output scores of the candidate branch before renormalization: the
key scaled back by `1e6`, zero-filled beyond `candCount`. -/
def candScores0 (ranked : List (Nat × Nat)) (k : Nat) : List ℚ :=
  (ranked.take k).map (fun c => (c.2 : ℚ) / 1000000) ++
    List.replicate (k - ranked.length) 0

/-- Renormalize the first `filled` entries to sum to 1 when their sum
is positive (`scores[i] /= sum` for `i < filled`); otherwise leave the
list unchanged. -/
def renorm (scores : List ℚ) (filled : Nat) : List ℚ :=
  let s := (scores.take filled).sum
  if 0 < s then (scores.take filled).map (fun x => x / s) ++ scores.drop filled
  else scores

/-- The unigram-padding loop of the fallback: walk the sorted unigram
array, skipping ids already present among the first `outIdx` outputs,
writing `count / totalTokens` scores until `k` slots are used. -/
def uniPad (total : ℚ) : List (Nat × Nat) → List Nat → List ℚ → Nat → Nat →
    List Nat × List ℚ × Nat
  | [], tops, scores, outIdx, _ => (tops, scores, outIdx)
  | (t, c) :: rest, tops, scores, outIdx, k =>
    if k ≤ outIdx then (tops, scores, outIdx)
    else if (tops.take outIdx).contains t then uniPad total rest tops scores outIdx k
    else uniPad total rest (tops.set outIdx t) (scores.set outIdx ((c : ℚ) / total))
      (outIdx + 1) k

/-- Zero the slots `from'..k-1` of a length-`k` output list. -/
def zeroFrom (l : List ℚ) (from' k : Nat) : List ℚ :=
  l.take from' ++ List.replicate (k - from') 0

/-- Zero the id slots `from'..k-1` of a length-`k` output list. -/
def zeroFromIds (l : List Nat) (from' k : Nat) : List Nat :=
  l.take from' ++ List.replicate (k - from') 0

/-- The unigram fallback of `predictNextToken`: rank the root's
unigrams by descending count and pad slots `filled..k-1`; when there
are no unigrams or `totalTokens = 0`, zero all `k` slots (including
any already filled — the C `else` branch rewrites `0..k-1`). -/
def fallback (m : LMModel) (tops : List Nat) (scores : List ℚ) (filled k : Nat) :
    List Nat × List ℚ :=
  let arr := sortDescByKey (uniPairs m.ngrams)
  if arr.isEmpty || m.totalTokens == 0 then
    (List.replicate k 0, List.replicate k 0)
  else
    let r := uniPad (m.totalTokens : ℚ) arr tops scores filled k
    (zeroFromIds r.1 r.2.2 k, zeroFrom r.2.1 r.2.2 k)

/-- `predictNextToken`.  Returns `none` on the early exits (`k ≤ 0` or
an empty tokenization), in which case C leaves the caller's output
arrays untouched; otherwise all `k` slots of both arrays are written
and returned. -/
def predictNextToken (flog : ℚ → ℚ) (m : LMModel) (context : List Nat) (k : Nat) :
    Option (List Nat × List ℚ) :=
  if k = 0 then none
  else
    let toks := tokenizeLine context
    if toks.isEmpty then none
    else
      let ranked := rankedCandidates flog m toks
      if ranked.isEmpty then
        some (fallback m (List.replicate k 0) (List.replicate k 0) 0 k)
      else
        let filled := min k ranked.length
        let tops := candTops ranked k
        let scores := renorm (candScores0 ranked k) filled
        if filled < k then some (fallback m tops scores filled k)
        else some (tops, scores)

/-- Rational stand-in for `logf`, used when theorems are instantiated
at concrete inputs: the natural logarithm's atanh series
`2 (t + t³/3 + t⁵/5 + t⁷/7 + t⁹/9)` at `t = (q-1)/(q+1)`, truncated
after five terms.  It agrees with `log` in sign on the evaluated
points (negative on `(0,1)`, zero at 1), which is all the concrete
instantiations rely on; non-positive arguments (unreachable behind the
`max · 1e-9` clamp) map to 0. -/
def logApprox (q : ℚ) : ℚ :=
  if q ≤ 0 then 0
  else
    let t := (q - 1) / (q + 1)
    2 * (t + t ^ 3 / 3 + t ^ 5 / 5 + t ^ 7 / 7 + t ^ 9 / 9)

/-! ## Generator (`generateResponse` and helpers)

`expf` joins `logf` as an explicit parameter `fexp`.  The process-wide
`rand()` stream is the oracle `rng : Nat → ℚ` indexed by the loop
iteration (at most one draw per iteration). -/

/-- Single-space join of a token sequence, as the C generator builds
its context and output strings with `strcat`. -/
def joinSpace (ws : List (List Nat)) : List Nat :=
  match ws with
  | [] => []
  | w :: rest => w ++ (rest.map (fun t => 32 :: t)).flatten

/-- The cumulative-probability scan of `sampleToken`: the first token
whose running total reaches the draw `r`; `none` when the scan runs
out (C then falls back to `tokens[0]`). -/
def pickCumulative (tokens : List Nat) : List ℚ → ℚ → ℚ → Nat → Option Nat
  | [], _, _, _ => none
  | p :: ps, r, cum, i =>
    if r ≤ cum + p then some (tokens.getD i 0)
    else pickCumulative tokens ps r (cum + p) (i + 1)

/-- `sampleToken`.  Greedy below temperature 0.01; otherwise the C loop
fills `adjusted[i] = expf(logf(scores[i] + 1e-9) / temperature)` until
the first non-positive score.  (C then normalizes and scans all `k`
entries, reading uninitialized `adjusted` slots past the break point;
the embedding scans only the initialized prefix, which is the defined
part of that behaviour.)  `r` is this call's `rand()/RAND_MAX` draw. -/
def sampleToken (fexp flog : ℚ → ℚ) (tokens : List Nat) (scores : List ℚ)
    (k : Nat) (temperature r : ℚ) : Nat :=
  if k = 0 then 0
  else if temperature ≤ 1 / 100 then tokens.headD 0
  else
    let kk := min k 64
    let pos := (scores.take kk).takeWhile (fun s => decide (0 < s))
    let adjusted := pos.map (fun s => fexp (flog (s + 1 / 1000000000) / temperature))
    let sum := adjusted.sum
    if sum ≤ 0 then tokens.headD 0
    else
      let norm := adjusted.map (fun a => a / sum)
      match pickCumulative tokens norm r 0 0 with
      | some t => t
      | none => tokens.headD 0

/-- Literal terminator tokens of `shouldStop` ("ya", "oke", "siap",
"pasti", "deh", "dong", "kok"). -/
def terminators : List (List Nat) :=
  [[121, 97], [111, 107, 101], [115, 105, 97, 112],
   [112, 97, 115, 116, 105], [100, 101, 104], [100, 111, 110, 103],
   [107, 111, 107]]

/-- `shouldStop`: sentence-ending punctuation on the last byte; a
terminator word after ≥ 5 tokens; low confidence (`< 0.03`) after ≥ 3
tokens; or the hard 25-token cap. -/
def shouldStop (tokenCount : Nat) (lastToken : List Nat) (lastScore : ℚ) : Bool :=
  if tokenCount = 0 then false
  else if (match lastToken.getLast? with
           | some b => b == 46 || b == 63 || b == 33
           | none => false) then true
  else if 5 ≤ tokenCount && terminators.contains lastToken then true
  else if lastScore < 3 / 100 && 3 ≤ tokenCount then true
  else if 25 ≤ tokenCount then true
  else false

/-- `hasRepetition`: last three ids equal, or the last two ids repeat
the previous two. -/
def hasRepetition (hist : List Nat) : Bool :=
  let n := hist.length
  (3 ≤ n && hist.getD (n - 1) 0 == hist.getD (n - 2) 0 &&
    hist.getD (n - 2) 0 == hist.getD (n - 3) 0) ||
  (4 ≤ n && hist.getD (n - 1) 0 == hist.getD (n - 3) 0 &&
    hist.getD (n - 2) 0 == hist.getD (n - 4) 0)

/-- The generation loop body, `fuel = min maxTokens 100` iterations at
most.  Returns the emitted tokens in order; `emitted` and `history`
always have equal length.  A `none` prediction (empty context
tokenization — unreachable from the contexts this loop builds) stops
the loop, as reading `scores[0]` there would be an uninitialized read
in C. -/
def genLoop (fexp flog : ℚ → ℚ) (m : LMModel) (temperature : ℚ) (rng : Nat → ℚ) :
    Nat → Nat → List Nat → List (List Nat) → List Nat → List (List Nat)
  | 0, _, _, emitted, _ => emitted
  | fuel + 1, i, context, emitted, history =>
    match predictNextToken flog m context 10 with
    | none => emitted
    | some (tops, scores) =>
      let top := scores.headD 0
      if top ≤ 0 then emitted
      else
        let next := sampleToken fexp flog tops scores 10 temperature (rng i)
        let text := getTokenById m.vocab next
        if text.isEmpty then emitted
        else
          let emitted2 := emitted ++ [text]
          let ctxToks := tokenizeLine context
          let context2 :=
            if ctxToks.length < 7 then context ++ 32 :: text
            else joinSpace ((ctxToks.drop (ctxToks.length - 6)) ++ [text])
          let history2 := history ++ [next]
          if shouldStop history2.length text top then emitted2
          else if hasRepetition history2 then emitted2
          else genLoop fexp flog m temperature rng fuel (i + 1) context2 emitted2 history2

/-- The tokens emitted by `generateResponse`: tokenize the input, stop
on an empty tokenization, seed the context with the last ≤ 7 input
tokens and run the loop. -/
def generateEmitted (fexp flog : ℚ → ℚ) (m : LMModel) (input : List Nat)
    (maxTokens : Nat) (temperature : ℚ) (rng : Nat → ℚ) : List (List Nat) :=
  let s := tokenizeLine input
  if s.isEmpty then []
  else
    let context := joinSpace (s.drop (s.length - 7))
    genLoop fexp flog m temperature rng (min maxTokens 100) 0 context [] []

/-- `generateResponse`: the output buffer contents — the emitted tokens
joined by single spaces (`maxTokens` is an `int` in C; the loop runs
only for non-negative values, so it is a `Nat` here). -/
def generateResponse (fexp flog : ℚ → ℚ) (m : LMModel) (input : List Nat)
    (maxTokens : Nat) (temperature : ℚ) (rng : Nat → ℚ) : List Nat :=
  joinSpace (generateEmitted fexp flog m input maxTokens temperature rng)

/-! ## Public wrapper (`cevia_predict`)

The wrapper allocates 64-slot scratch arrays, clamps `k` to 64, runs
`predictNextToken` with the clamped value and copies the scratch
prefix into the caller's arrays.  When `predictNextToken` returns
early the scratch arrays stay uninitialized and the copy reads them as
they are: the oracles `junkIds`/`junkScores` stand for those
indeterminate contents. -/
def ceviaPredict (flog : ℚ → ℚ) (m : LMModel) (context : List Nat)
    (tops0 : List (List Nat)) (scores0 : List ℚ) (k : Nat)
    (junkIds : List Nat) (junkScores : List ℚ) : List (List Nat) × List ℚ :=
  if k = 0 then (tops0, scores0)
  else
    let actualK := min k 64
    let r := (predictNextToken flog m context actualK).getD (junkIds, junkScores)
    (((r.1.take actualK).map (getTokenById m.vocab)) ++ tops0.drop actualK,
     r.2.take actualK ++ scores0.drop actualK)

/-! ## Structural invariants used by the round-trip claim

Training keeps every quantity inside the C machine ranges for any
realistic corpus; the round-trip theorem states those ranges as
explicit hypotheses and its witness discharges them on a trained
model. -/

/-- No two siblings share a token id. -/
def nodupIds : List Nat → Bool
  | [] => true
  | x :: xs => !xs.contains x && nodupIds xs

/-- Sibling token ids are distinct at every level down to depth `d`. -/
def wfTo : Nat → List NgramNode → Bool
  | 0, _ => true
  | d + 1, ns => nodupIds (ns.map (fun n => n.tokenId)) &&
      ns.all (fun n => wfTo d n.children)

/-- All token ids and counts down to depth `d` fit in a `uint32_t`. -/
def nodesOk : Nat → List NgramNode → Bool
  | 0, _ => true
  | d + 1, ns => ns.all (fun n =>
      n.tokenId < 2 ^ 32 && n.count < 2 ^ 32 && nodesOk d n.children)

/-- The machine-range side conditions of the round trip: token lengths
fit in the `u16` length field, table sizes and ids/counts in `u32`,
`totalTokens` in `u64`. -/
def boundsOk (m : LMModel) : Bool :=
  m.vocab.idToToken.all (fun t => t.length < 2 ^ 16) &&
  m.vocab.idToToken.length < 2 ^ 32 &&
  m.totalTokens < 2 ^ 64 &&
  nodesOk 3 m.ngrams.rootChildren &&
  (uniPairs m.ngrams).length < 2 ^ 32 &&
  (biTriples m.ngrams).length < 2 ^ 32 &&
  (triQuads m.ngrams).length < 2 ^ 32

/-! ## Concrete instances used by witnesses and counterexamples -/

/-- The corpus line `"a b c"`. -/
def lineABC : List Nat := [97, 32, 98, 32, 99]

/-- The corpus line `"a b d"`. -/
def lineABD : List Nat := [97, 32, 98, 32, 100]

/-- The model of seed scenario 2: fresh `maxN = 3` model trained on
`"a b c"` and `"a b d"` (ids: a ↦ 3, b ↦ 4, c ↦ 5, d ↦ 6). -/
def mC2 : LMModel := trainFromFile (createLMModel 3) [lineABC, lineABD]

/-- A hand-built vocabulary over tokens `a`, `b`, `c` (ids 3, 4, 5). -/
def vocab3 : Vocabulary :=
  { tokenToId := [(unkTok, 0), (bosTok, 1), (eosTok, 2), ([97], 3), ([98], 4), ([99], 5)],
    idToToken := [unkTok, bosTok, eosTok, [97], [98], [99]] }

/-- A hand-built trie: after `a` the successors are `b` (99 times) and
`c` (once); unigram counts 99 for `b` and 1 for `c`. -/
def trie3 : NgramIndex :=
  { rootChildren := [.mk 3 900 [.mk 4 99 [], .mk 5 1 []], .mk 4 99 [], .mk 5 1 []],
    maxN := 2, totalNgrams := 0 }

/-- A model in which the unigram prior drives the final score of the
rare successor `c` below zero: 1000 training tokens, so
`p(c) = 1/1000` and `0.01 + 0.1·log(1/1000) < 0` while
`0.99 + 0.1·log(99/1000) > 0`. -/
def m3 : LMModel := { vocab := vocab3, ngrams := trie3, maxN := 2, totalTokens := 1000 }

/-- Seed scenario 1's input line `"Hello, World!  HELLO"`. -/
def hwLine : List Nat :=
  [72, 101, 108, 108, 111, 44, 32, 87, 111, 114, 108, 100, 33, 32, 32, 72, 69, 76, 76, 79]

/-- A 32-byte run of `a` followed by `" b"`: the run is truncated to 31
bytes and the scanning loop exits, so the token `b` is never produced. -/
def longRunLine : List Nat := List.replicate 32 97 ++ [32, 98]

/-- The true (pre-cast) final score of candidate token `t`: its entry
in the candidate table after backward accumulation and the unigram
prior — the quantity the float `cand[i].score` holds when the sorting
keys are formed. -/
def finalScore (flog : ℚ → ℚ) (m : LMModel) (toks : List (List Nat)) (t : Nat) : ℚ :=
  match (addPrior flog m (accumulateCands m toks)).find? (fun c => c.1 == t) with
  | some c => c.2
  | none => 0

/-- All `(path, count)` pairs at exactly depth `d` of a trie level, in
the traversal order `saveModel` uses; the uniform view of the unigram,
bigram and trigram record lists. -/
def pathsWithCounts : Nat → List NgramNode → List (List Nat × Nat)
  | 0, _ => []
  | d + 1, ns =>
    if d = 0 then ns.map (fun n => ([n.tokenId], n.count))
    else ns.flatMap (fun a => (pathsWithCounts d a.children).map
      (fun e => (a.tokenId :: e.1, e.2)))

/-! # Theorems -/

/-- C2: training a fresh `maxN = 3` model on the lines `"a b c"` and
`"a b d"` yields `count([a],1) = 2`, `count([a,b],2) = 2`,
`count([a,b,c],3) = 1`, `count([a,b,d],3) = 1` and `totalTokens = 6`,
the ids being the trained vocabulary's ids of the four words. -/
theorem C2_training_counts :
    getNgramCount mC2.ngrams [hashMapGet mC2.vocab.tokenToId [97]] 1 = 2 ∧
    getNgramCount mC2.ngrams
      [hashMapGet mC2.vocab.tokenToId [97], hashMapGet mC2.vocab.tokenToId [98]] 2 = 2 ∧
    getNgramCount mC2.ngrams
      [hashMapGet mC2.vocab.tokenToId [97], hashMapGet mC2.vocab.tokenToId [98],
       hashMapGet mC2.vocab.tokenToId [99]] 3 = 1 ∧
    getNgramCount mC2.ngrams
      [hashMapGet mC2.vocab.tokenToId [97], hashMapGet mC2.vocab.tokenToId [98],
       hashMapGet mC2.vocab.tokenToId [100]] 3 = 1 ∧
    mC2.totalTokens = 6 := by decide

/-- C7 counterexample: on a freshly created vocabulary the reserved
token `<unk>` is present at id 0, yet `getOrAddToken` hands it the
fresh id 3 and changes both mappings (the id-to-token array grows to
four entries). -/
theorem C7_unk_realias :
    (getOrAddToken createVocabulary unkTok).2 = 3 ∧
    (getOrAddToken createVocabulary unkTok).1 ≠ createVocabulary := by decide

/-- C7 amended: for every token stored with a non-zero id,
`getOrAddToken` returns that id and leaves the vocabulary unchanged;
the reserved `<unk>` at id 0 is the exception, as its lookup result 0
is indistinguishable from "absent" and it gets re-added under a fresh
id. -/
theorem C7_existing_nonzero_id (v : Vocabulary) (token : List Nat)
    (h : hashMapGet v.tokenToId token ≠ 0) :
    getOrAddToken v token = (v, hashMapGet v.tokenToId token) := by
  unfold getOrAddToken
  simp [h]

/-- Witness for C7's amended theorem: `<s>` is stored at id 1 in a
fresh vocabulary, and `getOrAddToken` returns it unchanged. -/
theorem C7_existing_nonzero_id_witness :
    hashMapGet createVocabulary.tokenToId bosTok ≠ 0 ∧
    getOrAddToken createVocabulary bosTok =
      (createVocabulary, hashMapGet createVocabulary.tokenToId bosTok) :=
  ⟨by decide, C7_existing_nonzero_id createVocabulary bosTok (by decide)⟩

/-- C5 counterexample: on the empty context `predictNextToken` returns
through the `s.length == 0` early exit without writing the output
arrays (`none` in the embedding), not with `k` zero-filled slots. -/
theorem C5_empty_not_zero_filled :
    predictNextToken logApprox (createLMModel 3) [] 1 ≠
      some (List.replicate 1 0, List.replicate 1 0) := by decide

/-- C5 amended: whenever the context tokenizes to the empty sentence,
`predictNextToken` returns early and leaves all `k` output slots
untouched (it does not zero-fill them). -/
theorem C5_empty_early_return (flog : ℚ → ℚ) (m : LMModel) (ctx : List Nat) (k : Nat)
    (h : tokenizeLine ctx = []) :
    predictNextToken flog m ctx k = none := by
  unfold predictNextToken
  by_cases hk : k = 0
  · simp [hk]
  · simp [hk, h]

/-- Witness for C5's amended theorem at the empty context string. -/
theorem C5_empty_early_return_witness :
    tokenizeLine [] = [] ∧ predictNextToken logApprox mC2 [] 5 = none :=
  ⟨rfl, C5_empty_early_return logApprox mC2 [] 5 rfl⟩

/-- C10: an input whose tokenization is empty makes `generateResponse`
produce the empty output; the loop (and with it any prediction or
sampling) is never entered. -/
theorem C10_generate_empty_input (fexp flog : ℚ → ℚ) (m : LMModel) (input : List Nat)
    (maxTokens : Nat) (temperature : ℚ) (rng : Nat → ℚ)
    (h : tokenizeLine input = []) :
    generateResponse fexp flog m input maxTokens temperature rng = [] ∧
    generateEmitted fexp flog m input maxTokens temperature rng = [] := by
  have he : generateEmitted fexp flog m input maxTokens temperature rng = [] := by
    unfold generateEmitted
    simp [h]
  exact ⟨by unfold generateResponse; rw [he]; rfl, he⟩

/-- Witness for C10 at the empty input string. -/
theorem C10_generate_empty_input_witness :
    tokenizeLine [] = [] ∧
    generateResponse logApprox logApprox mC2 [] 7 0 (fun _ => 0) = [] ∧
    generateEmitted logApprox logApprox mC2 [] 7 0 (fun _ => 0) = [] :=
  ⟨rfl, C10_generate_empty_input logApprox logApprox mC2 [] 7 0 (fun _ => 0) rfl⟩

/-- C4 counterexample: with the empty context, `predictNextToken`
writes none of the `k` requested slots (no `some` result exists), so
the all-`k`-slots/non-negativity/sum-to-1 contract fails there. -/
theorem C4_empty_writes_nothing :
    ¬ ∃ tops scores, predictNextToken logApprox (createLMModel 2) [] 1 =
        some (tops, scores) := by
  intro h
  obtain ⟨t, s, hs⟩ := h
  have hn : predictNextToken logApprox (createLMModel 2) [] 1 = none := by decide
  rw [hn] at hs
  exact Option.noConfusion hs

/-- C6 counterexample: on a 32-byte run followed by `" b"` the code
stops scanning at the 31st run byte and discards the rest of the line,
so the spec-side tokenization (which keeps the following token `b`)
differs. -/
theorem C6_long_run_stops_scan :
    tokenizeLine longRunLine ≠ specTokenize longRunLine := by decide

unseal Rat.add Rat.mul Rat.inv Rat.sub in
/-- C3 counterexample: on the model `m3` with context `"a"` and
`k = 2`, both output slots come from the candidate table (it holds two
candidates), yet the emitted order is `[c, b]` while the true final
score of `c` (negative, aliased into a huge 32-bit key by the cast) is
strictly below that of `b`. -/
theorem C3_negative_score_misordered :
    (predictNextToken logApprox m3 [97] 2).map (fun r => r.1) = some [5, 4] ∧
    2 ≤ (rankedCandidates logApprox m3 (tokenizeLine [97])).length ∧
    finalScore logApprox m3 (tokenizeLine [97]) 5 <
      finalScore logApprox m3 (tokenizeLine [97]) 4 := by decide

/-! ### Sorting lemmas for the candidate ranking -/

theorem mem_insDesc {x y : Nat × Nat} {l : List (Nat × Nat)} :
    y ∈ insDesc x l ↔ y = x ∨ y ∈ l := by
  induction l with
  | nil => simp [insDesc]
  | cons z zs ih =>
    unfold insDesc
    by_cases h : x.2 ≤ z.2
    · simp only [if_pos h, List.mem_cons, ih]
      tauto
    · simp only [if_neg h, List.mem_cons]

theorem pairwise_insDesc {x : Nat × Nat} {l : List (Nat × Nat)}
    (h : l.Pairwise (fun a b => b.2 ≤ a.2)) :
    (insDesc x l).Pairwise (fun a b => b.2 ≤ a.2) := by
  induction l with
  | nil => simp [insDesc]
  | cons z zs ih =>
    rw [List.pairwise_cons] at h
    obtain ⟨hz, hzs⟩ := h
    unfold insDesc
    by_cases hc : x.2 ≤ z.2
    · rw [if_pos hc, List.pairwise_cons]
      refine ⟨?_, ih hzs⟩
      intro b hb
      rcases mem_insDesc.1 hb with rfl | hbz
      · exact hc
      · exact hz b hbz
    · rw [if_neg hc, List.pairwise_cons]
      refine ⟨?_, List.Pairwise.cons hz hzs⟩
      intro b hb
      rcases List.mem_cons.1 hb with rfl | hbz
      · exact Nat.le_of_lt (Nat.lt_of_not_le hc)
      · exact Nat.le_trans (hz b hbz) (Nat.le_of_lt (Nat.lt_of_not_le hc))

theorem sortDescByKey_pairwise (l : List (Nat × Nat)) :
    (sortDescByKey l).Pairwise (fun a b => b.2 ≤ a.2) := by
  induction l with
  | nil => simp [sortDescByKey]
  | cons x xs ih => exact pairwise_insDesc ih

/-! ### Structural lemmas on the predictor's output assembly -/

theorem take_set_ge {α : Type} (l : List α) (i n : Nat) (x : α) (h : n ≤ i) :
    (l.set i x).take n = l.take n := by
  induction l generalizing i n with
  | nil => simp
  | cons a l ih =>
    cases i with
    | zero =>
      have : n = 0 := Nat.le_antisymm h (Nat.zero_le n)
      subst this
      simp
    | succ i =>
      cases n with
      | zero => simp
      | succ n =>
        simp only [List.set_cons_succ, List.take_succ_cons]
        rw [ih i n (Nat.le_of_succ_le_succ h)]

theorem candTops_length (ranked : List (Nat × Nat)) (k : Nat) :
    (candTops ranked k).length = k := by
  unfold candTops
  simp only [List.length_append, List.length_map, List.length_take, List.length_replicate]
  omega

theorem candScores0_length (ranked : List (Nat × Nat)) (k : Nat) :
    (candScores0 ranked k).length = k := by
  unfold candScores0
  simp only [List.length_append, List.length_map, List.length_take, List.length_replicate]
  omega

theorem renorm_length (l : List ℚ) (filled : Nat) : (renorm l filled).length = l.length := by
  unfold renorm
  by_cases h : 0 < (l.take filled).sum
  · simp only [if_pos h, List.length_append, List.length_map, List.length_take,
      List.length_drop]
    omega
  · simp only [if_neg h]

theorem renorm_of_not_pos (l : List ℚ) (filled : Nat) (hs : ¬ 0 < (l.take filled).sum) :
    renorm l filled = l := by
  unfold renorm
  simp only [if_neg hs]

/-- Everything `uniPad` guarantees at once: preserved lengths, a
monotone output index bounded by `k`, and preservation of the first
`outIdx` slots. -/
theorem uniPad_spec (total : ℚ) (arr : List (Nat × Nat)) :
    ∀ tops scores outIdx k,
      (uniPad total arr tops scores outIdx k).1.length = tops.length ∧
      (uniPad total arr tops scores outIdx k).2.1.length = scores.length ∧
      outIdx ≤ (uniPad total arr tops scores outIdx k).2.2 ∧
      (outIdx ≤ k → (uniPad total arr tops scores outIdx k).2.2 ≤ k) ∧
      (∀ n, n ≤ outIdx →
        (uniPad total arr tops scores outIdx k).1.take n = tops.take n ∧
        (uniPad total arr tops scores outIdx k).2.1.take n = scores.take n) := by
  induction arr with
  | nil =>
    intro tops scores outIdx k
    exact ⟨rfl, rfl, Nat.le_refl _, fun h => h, fun n _ => ⟨rfl, rfl⟩⟩
  | cons tc rest ih =>
    intro tops scores outIdx k
    obtain ⟨t, c⟩ := tc
    unfold uniPad
    by_cases hk : k ≤ outIdx
    · rw [if_pos hk]
      exact ⟨rfl, rfl, Nat.le_refl _, fun h => h, fun n _ => ⟨rfl, rfl⟩⟩
    · rw [if_neg hk]
      by_cases hdup : (tops.take outIdx).contains t
      · simp only [if_pos hdup]
        exact ih tops scores outIdx k
      · simp only [if_neg hdup]
        obtain ⟨h1, h2, h3, h4, h5⟩ :=
          ih (tops.set outIdx t) (scores.set outIdx ((c : ℚ) / total)) (outIdx + 1) k
        refine ⟨by rw [h1, List.length_set], by rw [h2, List.length_set], ?_, ?_, ?_⟩
        · exact Nat.le_trans (Nat.le_succ _) h3
        · intro h
          exact h4 (Nat.lt_of_not_le hk)
        · intro n hn
          obtain ⟨ht, hs⟩ := h5 n (Nat.le_trans hn (Nat.le_succ _))
          rw [ht, hs, take_set_ge _ _ _ _ hn, take_set_ge _ _ _ _ hn]
          exact ⟨rfl, rfl⟩

theorem zeroFromIds_length (l : List Nat) (f k : Nat) (hf : f ≤ k) (hl : l.length = k) :
    (zeroFromIds l f k).length = k := by
  unfold zeroFromIds
  simp only [List.length_append, List.length_take, List.length_replicate]
  omega

theorem zeroFrom_length (l : List ℚ) (f k : Nat) (hf : f ≤ k) (hl : l.length = k) :
    (zeroFrom l f k).length = k := by
  unfold zeroFrom
  simp only [List.length_append, List.length_take, List.length_replicate]
  omega

theorem zeroFromIds_take (l : List Nat) (f k n : Nat) (hn : n ≤ f) (hf : f ≤ l.length) :
    (zeroFromIds l f k).take n = l.take n := by
  unfold zeroFromIds
  rw [List.take_append_eq_append_take, List.take_take]
  have h1 : min n f = n := Nat.min_eq_left hn
  have h2 : n - (l.take f).length = 0 := by
    simp only [List.length_take]
    omega
  rw [h1, h2]
  simp

theorem fallback_lengths (m : LMModel) (tops : List Nat) (scores : List ℚ)
    (filled k : Nat) (hf : filled ≤ k) (ht : tops.length = k) (hs : scores.length = k) :
    (fallback m tops scores filled k).1.length = k ∧
    (fallback m tops scores filled k).2.length = k := by
  unfold fallback
  by_cases hz : (sortDescByKey (uniPairs m.ngrams)).isEmpty || m.totalTokens == 0
  · rw [if_pos hz]
    exact ⟨List.length_replicate k 0, List.length_replicate k 0⟩
  · rw [if_neg hz]
    obtain ⟨h1, h2, h3, h4, _⟩ :=
      uniPad_spec (m.totalTokens : ℚ) (sortDescByKey (uniPairs m.ngrams)) tops scores filled k
    constructor
    · exact zeroFromIds_length _ _ _ (h4 hf) (by rw [h1, ht])
    · exact zeroFrom_length _ _ _ (h4 hf) (by rw [h2, hs])

/-- Every `some` result of `predictNextToken` carries exactly `k` ids
and `k` scores. -/
theorem predict_some_lengths (flog : ℚ → ℚ) (m : LMModel) (ctx : List Nat) (k : Nat)
    (r : List Nat × List ℚ)
    (h : predictNextToken flog m ctx k = some r) :
    r.1.length = k ∧ r.2.length = k := by
  unfold predictNextToken at h
  by_cases hk : k = 0
  · rw [if_pos hk] at h
    exact absurd h (by simp)
  · rw [if_neg hk] at h
    by_cases he : (tokenizeLine ctx).isEmpty
    · rw [if_pos he] at h
      exact absurd h (by simp)
    · rw [if_neg he] at h
      by_cases hr : (rankedCandidates flog m (tokenizeLine ctx)).isEmpty
      · rw [if_pos hr] at h
        obtain rfl := (Option.some.inj h).symm
        exact fallback_lengths m (List.replicate k 0) (List.replicate k 0) 0 k
          (Nat.zero_le k) (List.length_replicate k 0) (List.length_replicate k 0)
      · rw [if_neg hr] at h
        by_cases hlt : min k (rankedCandidates flog m (tokenizeLine ctx)).length < k
        · rw [if_pos hlt] at h
          obtain rfl := (Option.some.inj h).symm
          exact fallback_lengths m
            (candTops (rankedCandidates flog m (tokenizeLine ctx)) k)
            (renorm (candScores0 (rankedCandidates flog m (tokenizeLine ctx)) k)
              (min k (rankedCandidates flog m (tokenizeLine ctx)).length))
            (min k (rankedCandidates flog m (tokenizeLine ctx)).length) k
            (Nat.min_le_left _ _) (candTops_length _ _)
            (by rw [renorm_length]; exact candScores0_length _ _)
        · rw [if_neg hlt] at h
          obtain rfl := (Option.some.inj h).symm
          refine ⟨candTops_length _ _, ?_⟩
          rw [renorm_length]
          exact candScores0_length _ _

/-! ### Non-negativity and renormalization of the emitted scores -/

theorem candScores0_nonneg (ranked : List (Nat × Nat)) (k : Nat) :
    ∀ x ∈ candScores0 ranked k, 0 ≤ x := by
  intro x hx
  unfold candScores0 at hx
  rcases List.mem_append.1 hx with h | h
  · obtain ⟨c, _, rfl⟩ := List.mem_map.1 h
    positivity
  · rw [List.eq_of_mem_replicate h]

theorem renorm_nonneg (l : List ℚ) (filled : Nat) (h : ∀ x ∈ l, 0 ≤ x) :
    ∀ x ∈ renorm l filled, 0 ≤ x := by
  intro x hx
  unfold renorm at hx
  by_cases hs : 0 < (l.take filled).sum
  · rw [if_pos hs] at hx
    rcases List.mem_append.1 hx with h1 | h1
    · obtain ⟨y, hy, rfl⟩ := List.mem_map.1 h1
      exact div_nonneg (h y (List.mem_of_mem_take hy)) (le_of_lt hs)
    · exact h x (List.mem_of_mem_drop h1)
  · rw [if_neg hs] at hx
    exact h x hx

theorem uniPad_nonneg (total : ℚ) (htot : 0 ≤ total) (arr : List (Nat × Nat)) :
    ∀ tops scores outIdx k, (∀ x ∈ scores, 0 ≤ x) →
      ∀ x ∈ (uniPad total arr tops scores outIdx k).2.1, 0 ≤ x := by
  induction arr with
  | nil =>
    intro tops scores outIdx k h x hx
    exact h x hx
  | cons tc rest ih =>
    intro tops scores outIdx k h x hx
    obtain ⟨t, c⟩ := tc
    unfold uniPad at hx
    by_cases hk : k ≤ outIdx
    · rw [if_pos hk] at hx
      exact h x hx
    · rw [if_neg hk] at hx
      by_cases hdup : (tops.take outIdx).contains t
      · rw [if_pos hdup] at hx
        exact ih tops scores outIdx k h x hx
      · rw [if_neg hdup] at hx
        refine ih _ _ _ _ ?_ x hx
        intro y hy
        rcases List.mem_or_eq_of_mem_set hy with hy1 | hy1
        · exact h y hy1
        · rw [hy1]
          positivity

theorem zeroFrom_nonneg (l : List ℚ) (f k : Nat) (h : ∀ x ∈ l, 0 ≤ x) :
    ∀ x ∈ zeroFrom l f k, 0 ≤ x := by
  intro x hx
  unfold zeroFrom at hx
  rcases List.mem_append.1 hx with h1 | h1
  · exact h x (List.mem_of_mem_take h1)
  · rw [List.eq_of_mem_replicate h1]

theorem fallback_nonneg (m : LMModel) (tops : List Nat) (scores : List ℚ)
    (filled k : Nat) (h : ∀ x ∈ scores, 0 ≤ x) :
    ∀ x ∈ (fallback m tops scores filled k).2, 0 ≤ x := by
  intro x hx
  unfold fallback at hx
  by_cases hz : (sortDescByKey (uniPairs m.ngrams)).isEmpty || m.totalTokens == 0
  · rw [if_pos hz] at hx
    rw [List.eq_of_mem_replicate hx]
  · rw [if_neg hz] at hx
    refine zeroFrom_nonneg _ _ _ ?_ x hx
    exact uniPad_nonneg (m.totalTokens : ℚ) (by positivity) _ tops scores filled k h

/-- Every score emitted by `predictNextToken` is non-negative. -/
theorem predict_scores_nonneg (flog : ℚ → ℚ) (m : LMModel) (ctx : List Nat) (k : Nat)
    (r : List Nat × List ℚ) (h : predictNextToken flog m ctx k = some r) :
    ∀ x ∈ r.2, 0 ≤ x := by
  unfold predictNextToken at h
  by_cases hk : k = 0
  · rw [if_pos hk] at h
    exact absurd h (by simp)
  · rw [if_neg hk] at h
    by_cases he : (tokenizeLine ctx).isEmpty
    · rw [if_pos he] at h
      exact absurd h (by simp)
    · rw [if_neg he] at h
      by_cases hr : (rankedCandidates flog m (tokenizeLine ctx)).isEmpty
      · rw [if_pos hr] at h
        obtain rfl := (Option.some.inj h).symm
        refine fallback_nonneg _ _ _ _ _ ?_
        intro x hx
        rw [List.eq_of_mem_replicate hx]
      · rw [if_neg hr] at h
        by_cases hlt : min k (rankedCandidates flog m (tokenizeLine ctx)).length < k
        · rw [if_pos hlt] at h
          obtain rfl := (Option.some.inj h).symm
          exact fallback_nonneg _ _ _ _ _
            (renorm_nonneg _ _ (candScores0_nonneg _ _))
        · rw [if_neg hlt] at h
          obtain rfl := (Option.some.inj h).symm
          exact renorm_nonneg _ _ (candScores0_nonneg _ _)

theorem sum_map_div (l : List ℚ) (s : ℚ) : (l.map (fun x => x / s)).sum = l.sum / s := by
  induction l with
  | nil => simp
  | cons a l ih => simp [ih, add_div]

/-- When the first `filled` entries are the whole list and their sum is
positive, renormalization makes the list sum to exactly 1. -/
theorem renorm_sum_full (l : List ℚ) (filled : Nat) (hf : l.length ≤ filled)
    (hs : 0 < l.sum) : (renorm l filled).sum = 1 := by
  unfold renorm
  rw [List.take_of_length_le hf, List.drop_eq_nil_of_le hf]
  rw [if_pos hs]
  rw [List.append_nil, sum_map_div]
  exact div_self (ne_of_gt hs)

/-- C4 amended: for a non-empty context tokenization `predictNextToken`
does write all `k` slots and every emitted score is non-negative; the
renormalized scores sum to exactly 1 when the candidate table supplies
all `k` slots with a positive pre-normalization sum.  (With the empty
tokenization nothing is written, and slots padded by the unigram
fallback add further mass on top of the renormalized candidate scores,
so the original all-contexts sum-to-1 contract does not hold.) -/
theorem C4_filled_slots (flog : ℚ → ℚ) (m : LMModel) (ctx : List Nat) (k : Nat)
    (hk : k ≠ 0) (ht : ¬(tokenizeLine ctx).isEmpty) :
    ∃ tops scores, predictNextToken flog m ctx k = some (tops, scores) ∧
      tops.length = k ∧ scores.length = k ∧ (∀ x ∈ scores, 0 ≤ x) ∧
      (k ≤ (rankedCandidates flog m (tokenizeLine ctx)).length →
        0 < (candScores0 (rankedCandidates flog m (tokenizeLine ctx)) k).sum →
        scores.sum = 1) := by
  have hsome : ∃ r, predictNextToken flog m ctx k = some r := by
    unfold predictNextToken
    rw [if_neg hk, if_neg ht]
    by_cases hr : (rankedCandidates flog m (tokenizeLine ctx)).isEmpty
    · rw [if_pos hr]
      exact ⟨_, rfl⟩
    · rw [if_neg hr]
      by_cases hlt : min k (rankedCandidates flog m (tokenizeLine ctx)).length < k
      · rw [if_pos hlt]
        exact ⟨_, rfl⟩
      · rw [if_neg hlt]
        exact ⟨_, rfl⟩
  obtain ⟨r, hr⟩ := hsome
  obtain ⟨t, s⟩ := r
  refine ⟨t, s, hr, (predict_some_lengths flog m ctx k (t, s) hr).1,
    (predict_some_lengths flog m ctx k (t, s) hr).2,
    predict_scores_nonneg flog m ctx k (t, s) hr, ?_⟩
  intro hklen hpos
  have hfull : ¬ min k (rankedCandidates flog m (tokenizeLine ctx)).length < k := by
    omega
  have hre : ¬ (rankedCandidates flog m (tokenizeLine ctx)).isEmpty := by
    rw [List.isEmpty_iff]
    intro h0
    rw [h0] at hklen
    simp at hklen
    exact hk hklen
  have heq : predictNextToken flog m ctx k =
      some (candTops (rankedCandidates flog m (tokenizeLine ctx)) k,
        renorm (candScores0 (rankedCandidates flog m (tokenizeLine ctx)) k)
          (min k (rankedCandidates flog m (tokenizeLine ctx)).length)) := by
    unfold predictNextToken
    rw [if_neg hk, if_neg ht, if_neg hre, if_neg hfull]
  rw [heq] at hr
  have hs2 : s = renorm (candScores0 (rankedCandidates flog m (tokenizeLine ctx)) k)
      (min k (rankedCandidates flog m (tokenizeLine ctx)).length) :=
    (congrArg Prod.snd (Option.some.inj hr)).symm
  rw [hs2]
  have hmin : min k (rankedCandidates flog m (tokenizeLine ctx)).length = k :=
    Nat.min_eq_left hklen
  rw [hmin]
  exact renorm_sum_full _ k (le_of_eq (candScores0_length _ _)) hpos

unseal Rat.add Rat.mul Rat.inv Rat.sub in
/-- Witness for C4's amended theorem: model of seed scenario 2, context
`"a b"`, `k = 2` — both hypotheses hold, and there the two candidates
`c`, `d` fill both slots and renormalize to scores summing to 1. -/
theorem C4_filled_slots_witness :
    (2 : Nat) ≠ 0 ∧ ¬(tokenizeLine [97, 32, 98]).isEmpty ∧
    (∃ tops scores, predictNextToken logApprox mC2 [97, 32, 98] 2 = some (tops, scores) ∧
      tops.length = 2 ∧ scores.length = 2 ∧ (∀ x ∈ scores, 0 ≤ x) ∧
      (2 ≤ (rankedCandidates logApprox mC2 (tokenizeLine [97, 32, 98])).length →
        0 < (candScores0 (rankedCandidates logApprox mC2 (tokenizeLine [97, 32, 98])) 2).sum →
        scores.sum = 1)) :=
  ⟨by decide, by decide,
    C4_filled_slots logApprox mC2 [97, 32, 98] 2 (by decide) (by decide)⟩

/-! ### The candidate prefix of the output and its ordering -/

theorem findNodePath_nil (p : List Nat) : findNodePath [] p = none := by
  cases p with
  | nil => rfl
  | cons t rest => rfl

theorem accumForL_nil_root (m : LMModel) (hroot : m.ngrams.rootChildren = [])
    (toks : List (List Nat)) (mc L : Nat) (cs : List (Nat × ℚ)) :
    accumForL m toks mc L cs = cs := by
  unfold accumForL
  cases hl : lookupAll m.vocab (toks.drop (toks.length - L)) with
  | none => rfl
  | some ids =>
    have hfp : findPrefixNode m.ngrams ids L = none := by
      unfold findPrefixNode
      by_cases hg : L < 1 || m.ngrams.maxN < L || ids.length < L
      · rw [if_pos hg]
      · rw [if_neg hg, hroot, findNodePath_nil]
    simp only [hfp]

theorem accumulateCands_nil_root (m : LMModel) (hroot : m.ngrams.rootChildren = [])
    (toks : List (List Nat)) : accumulateCands m toks = [] := by
  have key : ∀ (l : List Nat) (cs : List (Nat × ℚ)),
      l.foldl (fun cs i => accumForL m toks (min toks.length (m.maxN - 1))
        (min toks.length (m.maxN - 1) - i) cs) cs = cs := by
    intro l
    induction l with
    | nil => intro cs; rfl
    | cons a l ih =>
      intro cs
      rw [List.foldl_cons, accumForL_nil_root m hroot]
      exact ih cs
  unfold accumulateCands
  show (List.range (min toks.length (m.maxN - 1))).foldl
      (fun cs i => accumForL m toks (min toks.length (m.maxN - 1))
        (min toks.length (m.maxN - 1) - i) cs) [] = []
  exact key _ []

theorem insDesc_length (x : Nat × Nat) (l : List (Nat × Nat)) :
    (insDesc x l).length = l.length + 1 := by
  induction l with
  | nil => rfl
  | cons y ys ih =>
    unfold insDesc
    by_cases h : x.2 ≤ y.2
    · rw [if_pos h]
      simp [ih]
    · rw [if_neg h]
      simp

theorem sortDescByKey_length (l : List (Nat × Nat)) :
    (sortDescByKey l).length = l.length := by
  induction l with
  | nil => rfl
  | cons x xs ih =>
    unfold sortDescByKey
    rw [insDesc_length, ih]
    rfl

/-- A non-empty candidate ranking forces a non-empty root chain (the
candidates are children of some trie node). -/
theorem ranked_root_ne (flog : ℚ → ℚ) (m : LMModel) (toks : List (List Nat))
    (h : ¬(rankedCandidates flog m toks).isEmpty) : m.ngrams.rootChildren ≠ [] := by
  intro hroot
  apply h
  rw [List.isEmpty_iff]
  unfold rankedCandidates
  rw [accumulateCands_nil_root m hroot]
  unfold addPrior
  by_cases ht : m.totalTokens = 0
  · rw [if_pos ht]
    rfl
  · rw [if_neg ht]
    rfl

theorem fallback_take_eq (m : LMModel) (tops : List Nat) (scores : List ℚ)
    (filled k n : Nat)
    (hz : ¬((sortDescByKey (uniPairs m.ngrams)).isEmpty || m.totalTokens == 0))
    (hn : n ≤ filled) (hf : filled ≤ k) (ht : tops.length = k) :
    (fallback m tops scores filled k).1.take n = tops.take n := by
  unfold fallback
  rw [if_neg hz]
  obtain ⟨h1, _, h3, h4, h5⟩ :=
    uniPad_spec (m.totalTokens : ℚ) (sortDescByKey (uniPairs m.ngrams)) tops scores filled k
  rw [zeroFromIds_take _ _ _ _ (Nat.le_trans hn h3) (by rw [h1, ht]; exact h4 hf)]
  exact (h5 n hn).1

theorem candTops_take_eq (ranked : List (Nat × Nat)) (k n : Nat)
    (hn : n ≤ min k ranked.length) :
    (candTops ranked k).take n = (ranked.map (fun c => c.1)).take n := by
  unfold candTops
  rw [List.take_append_eq_append_take, List.map_take, List.take_take]
  have h1 : min n k = n := Nat.min_eq_left (Nat.le_trans hn (Nat.min_le_left _ _))
  have h2 : n - ((ranked.map (fun c => c.1)).take k).length = 0 := by
    simp only [List.length_take, List.length_map]
    omega
  rw [h1, h2]
  simp

/-- C3 amended: the candidate table is emitted in descending order of
the 32-bit sort key `(uint32_t)(score * 1e6)` — not of the true score:
the float-to-`uint32_t` round trip turns a negative final score into a
huge key, placing it above genuinely positive scores.  Whenever
`totalTokens ≠ 0`, the first `min k candCount` output ids are exactly
the key-sorted candidates in order. -/
theorem C3_sorted_by_cast_key (flog : ℚ → ℚ) (m : LMModel) (ctx : List Nat) (k : Nat) :
    (rankedCandidates flog m (tokenizeLine ctx)).Pairwise (fun a b => b.2 ≤ a.2) ∧
    (∀ tops scores, m.totalTokens ≠ 0 →
      predictNextToken flog m ctx k = some (tops, scores) →
      tops.take (min k (rankedCandidates flog m (tokenizeLine ctx)).length) =
        ((rankedCandidates flog m (tokenizeLine ctx)).map (fun c => c.1)).take
          (min k (rankedCandidates flog m (tokenizeLine ctx)).length)) := by
  constructor
  · unfold rankedCandidates
    exact sortDescByKey_pairwise _
  · intro tops scores htt h
    unfold predictNextToken at h
    by_cases hk : k = 0
    · rw [if_pos hk] at h
      exact absurd h (by simp)
    · rw [if_neg hk] at h
      by_cases he : (tokenizeLine ctx).isEmpty
      · rw [if_pos he] at h
        exact absurd h (by simp)
      · rw [if_neg he] at h
        by_cases hr : (rankedCandidates flog m (tokenizeLine ctx)).isEmpty
        · rw [if_pos hr] at h
          rw [List.isEmpty_iff] at hr
          rw [hr]
          simp
        · rw [if_neg hr] at h
          by_cases hlt : min k (rankedCandidates flog m (tokenizeLine ctx)).length < k
          · rw [if_pos hlt] at h
            have hmin : min k (rankedCandidates flog m (tokenizeLine ctx)).length =
                (rankedCandidates flog m (tokenizeLine ctx)).length := by
              omega
            have hz : ¬((sortDescByKey (uniPairs m.ngrams)).isEmpty ||
                m.totalTokens == 0) := by
              have hroot := ranked_root_ne flog m (tokenizeLine ctx) hr
              simp only [Bool.or_eq_true, not_or]
              constructor
              · rw [List.isEmpty_iff]
                intro hempty
                apply hroot
                have := sortDescByKey_length (uniPairs m.ngrams)
                rw [hempty] at this
                unfold uniPairs at this
                simpa using (List.map_eq_nil_iff.1 (List.length_eq_zero.1 this.symm))
              · simpa using htt
            have htops : tops = (fallback m
                (candTops (rankedCandidates flog m (tokenizeLine ctx)) k)
                (renorm (candScores0 (rankedCandidates flog m (tokenizeLine ctx)) k)
                  (min k (rankedCandidates flog m (tokenizeLine ctx)).length))
                (min k (rankedCandidates flog m (tokenizeLine ctx)).length) k).1 :=
              (congrArg Prod.fst (Option.some.inj h)).symm
            rw [htops]
            rw [fallback_take_eq _ _ _ _ _ _ hz (Nat.le_refl _)
              (Nat.min_le_left _ _) (candTops_length _ _)]
            exact candTops_take_eq _ _ _ (Nat.le_refl _)
          · rw [if_neg hlt] at h
            have htops : tops = candTops (rankedCandidates flog m (tokenizeLine ctx)) k :=
              (congrArg Prod.fst (Option.some.inj h)).symm
            rw [htops]
            exact candTops_take_eq _ _ _ (Nat.le_refl _)

unseal Rat.add Rat.mul Rat.inv Rat.sub in
/-- Witness for C3's amended theorem on the trained model of seed
scenario 2 with context `"a b"` and `k = 2`: the two candidate ids fill
both slots in ranked order. -/
theorem C3_sorted_by_cast_key_witness :
    ((rankedCandidates logApprox mC2 (tokenizeLine [97, 32, 98])).Pairwise
      (fun a b => b.2 ≤ a.2) ∧
     (∀ tops scores, mC2.totalTokens ≠ 0 →
       predictNextToken logApprox mC2 [97, 32, 98] 2 = some (tops, scores) →
       tops.take (min 2 (rankedCandidates logApprox mC2 (tokenizeLine [97, 32, 98])).length) =
         ((rankedCandidates logApprox mC2 (tokenizeLine [97, 32, 98])).map
           (fun c => c.1)).take
           (min 2 (rankedCandidates logApprox mC2 (tokenizeLine [97, 32, 98])).length))) ∧
    mC2.totalTokens ≠ 0 ∧
    predictNextToken logApprox mC2 [97, 32, 98] 2 =
      some ([6, 5], [1 / 2, 1 / 2]) :=
  ⟨C3_sorted_by_cast_key logApprox mC2 [97, 32, 98] 2, by decide, by decide⟩

/-- C9: `cevia_predict` clamps `k` to 64.  For `k > 64` and caller
arrays of `k` entries, only the first 64 entries of both arrays are
rewritten (with the 64-slot prediction, or with the scratch arrays'
indeterminate contents when the prediction returned early); the entries
at indices 64 through `k − 1` keep their previous values. -/
theorem C9_predict_clamps_k (flog : ℚ → ℚ) (m : LMModel) (ctx : List Nat)
    (tops0 : List (List Nat)) (scores0 : List ℚ) (k : Nat)
    (junkIds : List Nat) (junkScores : List ℚ)
    (hk : 64 < k) (ht0 : tops0.length = k) (hs0 : scores0.length = k)
    (hj1 : junkIds.length = 64) (hj2 : junkScores.length = 64) :
    (ceviaPredict flog m ctx tops0 scores0 k junkIds junkScores).1.length = k ∧
    (ceviaPredict flog m ctx tops0 scores0 k junkIds junkScores).2.length = k ∧
    (ceviaPredict flog m ctx tops0 scores0 k junkIds junkScores).1.drop 64 =
      tops0.drop 64 ∧
    (ceviaPredict flog m ctx tops0 scores0 k junkIds junkScores).2.drop 64 =
      scores0.drop 64 ∧
    (ceviaPredict flog m ctx tops0 scores0 k junkIds junkScores).1.take 64 =
      (((predictNextToken flog m ctx 64).getD (junkIds, junkScores)).1.take 64).map
        (getTokenById m.vocab) ∧
    (ceviaPredict flog m ctx tops0 scores0 k junkIds junkScores).2.take 64 =
      ((predictNextToken flog m ctx 64).getD (junkIds, junkScores)).2.take 64 := by
  have hk0 : k ≠ 0 := by omega
  have hmin : min k 64 = 64 := Nat.min_eq_right (Nat.le_of_lt hk)
  have hplen : ((predictNextToken flog m ctx 64).getD (junkIds, junkScores)).1.length = 64 ∧
      ((predictNextToken flog m ctx 64).getD (junkIds, junkScores)).2.length = 64 := by
    cases hpred : predictNextToken flog m ctx 64 with
    | none => exact ⟨hj1, hj2⟩
    | some r =>
      simp only [Option.getD_some]
      exact predict_some_lengths flog m ctx 64 r hpred
  obtain ⟨hp1, hp2⟩ := hplen
  have hstep : ceviaPredict flog m ctx tops0 scores0 k junkIds junkScores =
      ((((predictNextToken flog m ctx 64).getD (junkIds, junkScores)).1.take 64).map
          (getTokenById m.vocab) ++ tops0.drop 64,
       ((predictNextToken flog m ctx 64).getD (junkIds, junkScores)).2.take 64 ++
          scores0.drop 64) := by
    unfold ceviaPredict
    rw [if_neg hk0]
    show ((((predictNextToken flog m ctx (min k 64)).getD (junkIds, junkScores)).1.take
        (min k 64)).map (getTokenById m.vocab) ++ tops0.drop (min k 64),
      ((predictNextToken flog m ctx (min k 64)).getD (junkIds, junkScores)).2.take
        (min k 64) ++ scores0.drop (min k 64)) = _
    rw [hmin]
  rw [hstep]
  have hlen1 : ((((predictNextToken flog m ctx 64).getD (junkIds, junkScores)).1.take
      64).map (getTokenById m.vocab)).length = 64 := by
    simp only [List.length_map, List.length_take]
    omega
  have hlen2 : (((predictNextToken flog m ctx 64).getD (junkIds, junkScores)).2.take
      64).length = 64 := by
    simp only [List.length_take]
    omega
  refine ⟨?_, ?_, ?_, ?_, ?_, ?_⟩
  · simp only [List.length_append, hlen1, List.length_drop]
    omega
  · simp only [List.length_append, hlen2, List.length_drop]
    omega
  · rw [List.drop_append_eq_append_drop, hlen1]
    rw [List.drop_eq_nil_of_le (le_of_eq hlen1)]
    simp
  · rw [List.drop_append_eq_append_drop, hlen2]
    rw [List.drop_eq_nil_of_le (le_of_eq hlen2)]
    simp
  · rw [List.take_append_eq_append_take, hlen1]
    rw [List.take_of_length_le (le_of_eq hlen1)]
    simp
  · rw [List.take_append_eq_append_take, hlen2]
    rw [List.take_of_length_le (le_of_eq hlen2)]
    simp

/-- Witness for C9 at `k = 65` on a fresh model with an empty context
(the scratch arrays then keep their indeterminate contents, modelled
as zeros). -/
theorem C9_predict_clamps_k_witness :
    (64 < 65 ∧ (List.replicate 65 ([] : List Nat)).length = 65 ∧
      (List.replicate 65 (0 : ℚ)).length = 65 ∧
      (List.replicate 64 (0 : Nat)).length = 64 ∧
      (List.replicate 64 (0 : ℚ)).length = 64) ∧
    ((ceviaPredict logApprox (createLMModel 2) [] (List.replicate 65 ([] : List Nat))
        (List.replicate 65 (0 : ℚ)) 65 (List.replicate 64 (0 : Nat))
        (List.replicate 64 (0 : ℚ))).1.length = 65 ∧
     (ceviaPredict logApprox (createLMModel 2) [] (List.replicate 65 ([] : List Nat))
        (List.replicate 65 (0 : ℚ)) 65 (List.replicate 64 (0 : Nat))
        (List.replicate 64 (0 : ℚ))).2.length = 65 ∧
     (ceviaPredict logApprox (createLMModel 2) [] (List.replicate 65 ([] : List Nat))
        (List.replicate 65 (0 : ℚ)) 65 (List.replicate 64 (0 : Nat))
        (List.replicate 64 (0 : ℚ))).1.drop 64 =
       (List.replicate 65 ([] : List Nat)).drop 64 ∧
     (ceviaPredict logApprox (createLMModel 2) [] (List.replicate 65 ([] : List Nat))
        (List.replicate 65 (0 : ℚ)) 65 (List.replicate 64 (0 : Nat))
        (List.replicate 64 (0 : ℚ))).2.drop 64 =
       (List.replicate 65 (0 : ℚ)).drop 64 ∧
     (ceviaPredict logApprox (createLMModel 2) [] (List.replicate 65 ([] : List Nat))
        (List.replicate 65 (0 : ℚ)) 65 (List.replicate 64 (0 : Nat))
        (List.replicate 64 (0 : ℚ))).1.take 64 =
       (((predictNextToken logApprox (createLMModel 2) [] 64).getD
           (List.replicate 64 (0 : Nat), List.replicate 64 (0 : ℚ))).1.take 64).map
         (getTokenById (createLMModel 2).vocab) ∧
     (ceviaPredict logApprox (createLMModel 2) [] (List.replicate 65 ([] : List Nat))
        (List.replicate 65 (0 : ℚ)) 65 (List.replicate 64 (0 : Nat))
        (List.replicate 64 (0 : ℚ))).2.take 64 =
       ((predictNextToken logApprox (createLMModel 2) [] 64).getD
           (List.replicate 64 (0 : Nat), List.replicate 64 (0 : ℚ))).2.take 64) :=
  ⟨⟨by decide, by decide, by decide, by decide, by decide⟩,
   C9_predict_clamps_k logApprox (createLMModel 2) [] _ _ 65 _ _
     (by decide) (by decide) (by decide) (by decide) (by decide)⟩

/-! ### The generation-length bound -/

/-- Once 25 tokens are out, `shouldStop` fires. -/
theorem shouldStop_of_25 (tc : Nat) (t : List Nat) (s : ℚ) (h : 25 ≤ tc) :
    shouldStop tc t s = true := by
  unfold shouldStop
  have h0 : ¬(tc = 0) := by omega
  rw [if_neg h0]
  split_ifs <;> first | rfl | omega

/-- The loop emits at most one token per unit of fuel. -/
theorem genLoop_le_fuel (fexp flog : ℚ → ℚ) (m : LMModel) (temperature : ℚ)
    (rng : Nat → ℚ) :
    ∀ fuel i context emitted history,
      (genLoop fexp flog m temperature rng fuel i context emitted history).length ≤
        emitted.length + fuel := by
  intro fuel
  induction fuel with
  | zero =>
    intro i c e h
    simp [genLoop]
  | succ fuel ih =>
    intro i c e h
    rw [genLoop]
    cases hp : predictNextToken flog m c 10 with
    | none =>
      dsimp only
      omega
    | some r =>
      obtain ⟨tops, scores⟩ := r
      dsimp only
      by_cases h1 : scores.headD 0 ≤ 0
      · rw [if_pos h1]
        omega
      · rw [if_neg h1]
        by_cases h2 : (getTokenById m.vocab
            (sampleToken fexp flog tops scores 10 temperature (rng i))).isEmpty
        · rw [if_pos h2]
          omega
        · rw [if_neg h2]
          by_cases h3 : shouldStop (h ++ [sampleToken fexp flog tops scores 10
              temperature (rng i)]).length
              (getTokenById m.vocab (sampleToken fexp flog tops scores 10 temperature
                (rng i))) (scores.headD 0)
          · rw [if_pos h3]
            simp only [List.length_append, List.length_cons, List.length_nil]
            omega
          · rw [if_neg h3]
            by_cases h4 : hasRepetition (h ++ [sampleToken fexp flog tops scores 10
                temperature (rng i)])
            · rw [if_pos h4]
              simp only [List.length_append, List.length_cons, List.length_nil]
              omega
            · rw [if_neg h4]
              refine Nat.le_trans (ih (i + 1) _ _ _) ?_
              simp only [List.length_append, List.length_cons, List.length_nil]
              omega

/-- The 25-token stop keeps the emitted list at 25 or fewer. -/
theorem genLoop_le_25 (fexp flog : ℚ → ℚ) (m : LMModel) (temperature : ℚ)
    (rng : Nat → ℚ) :
    ∀ fuel i context emitted history,
      emitted.length < 25 → history.length = emitted.length →
      (genLoop fexp flog m temperature rng fuel i context emitted history).length ≤ 25 := by
  intro fuel
  induction fuel with
  | zero =>
    intro i c e h he _
    simpa [genLoop] using Nat.le_of_lt he
  | succ fuel ih =>
    intro i c e h he hh
    rw [genLoop]
    cases hp : predictNextToken flog m c 10 with
    | none =>
      dsimp only
      omega
    | some r =>
      obtain ⟨tops, scores⟩ := r
      dsimp only
      by_cases h1 : scores.headD 0 ≤ 0
      · rw [if_pos h1]
        omega
      · rw [if_neg h1]
        by_cases h2 : (getTokenById m.vocab
            (sampleToken fexp flog tops scores 10 temperature (rng i))).isEmpty
        · rw [if_pos h2]
          omega
        · rw [if_neg h2]
          by_cases h3 : shouldStop (h ++ [sampleToken fexp flog tops scores 10
              temperature (rng i)]).length
              (getTokenById m.vocab (sampleToken fexp flog tops scores 10 temperature
                (rng i))) (scores.headD 0)
          · rw [if_pos h3]
            simp only [List.length_append, List.length_cons, List.length_nil]
            omega
          · rw [if_neg h3]
            by_cases h4 : hasRepetition (h ++ [sampleToken fexp flog tops scores 10
                temperature (rng i)])
            · rw [if_pos h4]
              simp only [List.length_append, List.length_cons, List.length_nil]
              omega
            · rw [if_neg h4]
              have htc : (h ++ [sampleToken fexp flog tops scores 10 temperature
                  (rng i)]).length < 25 := by
                by_contra hc
                rw [shouldStop_of_25 _ _ _ (Nat.le_of_not_lt hc)] at h3
                exact h3 rfl
              refine ih (i + 1) _ _ _ ?_ ?_
              · simp only [List.length_append, List.length_cons, List.length_nil] at htc ⊢
                omega
              · simp only [List.length_append, List.length_cons, List.length_nil]
                omega

/-- C8: the generator emits at most `min maxTokens 25` tokens — the
loop runs at most `min maxTokens 100` iterations, one emission each,
and the `tokenCount ≥ 25` stop condition caps the emissions at 25. -/
theorem C8_generation_bound (fexp flog : ℚ → ℚ) (m : LMModel) (input : List Nat)
    (maxTokens : Nat) (temperature : ℚ) (rng : Nat → ℚ) :
    (generateEmitted fexp flog m input maxTokens temperature rng).length ≤
      min maxTokens 25 := by
  unfold generateEmitted
  by_cases hs : (tokenizeLine input).isEmpty
  · rw [if_pos hs]
    simp
  · rw [if_neg hs]
    dsimp only
    refine Nat.le_min.2 ⟨?_, ?_⟩
    · have := genLoop_le_fuel fexp flog m temperature rng (min maxTokens 100) 0
        (joinSpace ((tokenizeLine input).drop ((tokenizeLine input).length - 7))) [] []
      simp only [List.length_nil, Nat.zero_add] at this
      omega
    · exact genLoop_le_25 fexp flog m temperature rng (min maxTokens 100) 0 _ [] []
        (by simp) rfl

/-! ### Tokenizer refinement (C6) -/

theorem length_dropWhile_le_self {α : Type} (p : α → Bool) (l : List α) :
    (l.dropWhile p).length ≤ l.length := by
  induction l with
  | nil => simp
  | cons a l ih =>
    by_cases h : p a
    · rw [List.dropWhile_cons_of_pos h]
      simpa using Nat.le_succ_of_le ih
    · rw [List.dropWhile_cons_of_neg h]

set_option maxRecDepth 4000 in
theorem isSep_toLower {c : Nat} (h : c < 256) : isSep (toLowerByte c) = isSep c := by
  have key : ∀ b : Fin 256, isSep (toLowerByte b.1) = isSep b.1 := by decide
  exact key ⟨c, h⟩

set_option maxRecDepth 4000 in
theorem toLower_idem {c : Nat} (h : c < 256) :
    toLowerByte (toLowerByte c) = toLowerByte c := by
  have key : ∀ b : Fin 256, toLowerByte (toLowerByte b.1) = toLowerByte b.1 := by decide
  exact key ⟨c, h⟩

set_option maxRecDepth 4000 in
theorem toLower_lt {c : Nat} (h : c < 256) : toLowerByte c < 256 := by
  have key : ∀ b : Fin 256, toLowerByte b.1 < 256 := by decide
  exact key ⟨c, h⟩

theorem specRunsF_congr : ∀ (fuel1 fuel2 : Nat) (l : List Nat), l.length ≤ fuel1 →
    l.length ≤ fuel2 → specRunsF fuel1 l = specRunsF fuel2 l := by
  intro fuel1
  induction fuel1 with
  | zero =>
    intro fuel2 l h1 _
    rw [List.length_eq_zero.1 (Nat.le_zero.1 h1)]
    cases fuel2 <;> rfl
  | succ fuel1 ih =>
    intro fuel2 l h1 h2
    cases l with
    | nil => cases fuel2 <;> rfl
    | cons c rest =>
      cases fuel2 with
      | zero => exact absurd h2 (by simp)
      | succ fuel2 =>
        show (if isSep c then specRunsF fuel1 rest
            else (c :: rest.takeWhile (fun b => !isSep b)) ::
              specRunsF fuel1 (rest.dropWhile (fun b => !isSep b))) =
          (if isSep c then specRunsF fuel2 rest
            else (c :: rest.takeWhile (fun b => !isSep b)) ::
              specRunsF fuel2 (rest.dropWhile (fun b => !isSep b)))
        have hr : rest.length ≤ fuel1 := by
          simp only [List.length_cons] at h1
          omega
        have hr2 : rest.length ≤ fuel2 := by
          simp only [List.length_cons] at h2
          omega
        have hd : (rest.dropWhile (fun b => !isSep b)).length ≤ rest.length :=
          length_dropWhile_le_self _ _
        by_cases hs : isSep c
        · rw [if_pos hs, if_pos hs, ih fuel2 rest hr hr2]
        · rw [if_neg hs, if_neg hs,
            ih fuel2 (rest.dropWhile (fun b => !isSep b)) (Nat.le_trans hd hr)
              (Nat.le_trans hd hr2)]

/-- The defining equation of `specRuns` on a non-empty line. -/
theorem specRuns_cons (c : Nat) (rest : List Nat) :
    specRuns (c :: rest) = if isSep c then specRuns rest
      else (c :: rest.takeWhile (fun b => !isSep b)) ::
        specRuns (rest.dropWhile (fun b => !isSep b)) := by
  show specRunsF (c :: rest).length (c :: rest) = _
  have hd : (rest.dropWhile (fun b => !isSep b)).length ≤ rest.length :=
    length_dropWhile_le_self _ _
  show (if isSep c then specRunsF rest.length rest
      else (c :: rest.takeWhile (fun b => !isSep b)) ::
        specRunsF rest.length (rest.dropWhile (fun b => !isSep b))) = _
  by_cases hs : isSep c
  · rw [if_pos hs, if_pos hs]
    rfl
  · rw [if_neg hs, if_neg hs]
    rw [specRunsF_congr rest.length (rest.dropWhile (fun b => !isSep b)).length
      (rest.dropWhile (fun b => !isSep b)) hd (Nat.le_refl _)]
    rfl

theorem takeWhile_append_all {p : Nat → Bool} {a : List Nat} (b : List Nat)
    (h : ∀ x ∈ a, p x = true) : (a ++ b).takeWhile p = a ++ b.takeWhile p := by
  induction a with
  | nil => rfl
  | cons x xs ih =>
    rw [List.cons_append, List.takeWhile_cons_of_pos (h x (List.mem_cons_self x xs))]
    rw [ih (fun y hy => h y (List.mem_cons_of_mem x hy))]
    rfl

theorem dropWhile_append_all {p : Nat → Bool} {a : List Nat} (b : List Nat)
    (h : ∀ x ∈ a, p x = true) : (a ++ b).dropWhile p = b.dropWhile p := by
  induction a with
  | nil => rfl
  | cons x xs ih =>
    rw [List.cons_append, List.dropWhile_cons_of_pos (h x (List.mem_cons_self x xs))]
    exact ih (fun y hy => h y (List.mem_cons_of_mem x hy))

/-- A non-empty all-non-separator word prefix heads the first run. -/
theorem specRuns_word_append (w l : List Nat) (hw : ∀ c ∈ w, isSep c = false)
    (hne : w ≠ []) :
    specRuns (w ++ l) = (w ++ l.takeWhile (fun b => !isSep b)) ::
      specRuns (l.dropWhile (fun b => !isSep b)) := by
  cases w with
  | nil => exact absurd rfl hne
  | cons x xs =>
    rw [List.cons_append, specRuns_cons]
    rw [if_neg (by rw [hw x (List.mem_cons_self x xs)]; simp)]
    rw [takeWhile_append_all l (fun y hy => by
      rw [hw y (List.mem_cons_of_mem x hy)]; rfl)]
    rw [dropWhile_append_all l (fun y hy => by
      rw [hw y (List.mem_cons_of_mem x hy)]; rfl)]
    rfl

theorem foldl_addToken (ws : List (List Nat)) : ∀ acc,
    ws.foldl addToken acc = acc ++ (ws.map (fun w => w.take 31)).take (128 - acc.length) := by
  induction ws with
  | nil =>
    intro acc
    simp
  | cons w ws ih =>
    intro acc
    rw [List.foldl_cons]
    by_cases h : acc.length < 128
    · rw [show addToken acc w = acc ++ [w.take 31] from by
        unfold addToken; rw [if_pos h]]
      rw [ih]
      rw [List.length_append, List.append_assoc]
      congr 1
      have h1 : 128 - acc.length = (128 - (acc.length + [w.take 31].length)) + 1 := by
        simp only [List.length_cons, List.length_nil]
        omega
      rw [h1, List.map_cons, List.take_succ_cons]
      rfl
    · rw [show addToken acc w = acc from by unfold addToken; rw [if_neg h]]
      rw [ih]
      have h1 : 128 - acc.length = 0 := by omega
      rw [h1]
      simp

theorem takeWhile_congr {p q : Nat → Bool} : ∀ (l : List Nat), (∀ x ∈ l, p x = q x) →
    l.takeWhile p = l.takeWhile q := by
  intro l
  induction l with
  | nil => intro _; rfl
  | cons x xs ih =>
    intro h
    by_cases hp : p x = true
    · rw [List.takeWhile_cons_of_pos hp,
        List.takeWhile_cons_of_pos (by rw [← h x (List.mem_cons_self x xs)]; exact hp),
        ih (fun y hy => h y (List.mem_cons_of_mem x hy))]
    · rw [List.takeWhile_cons_of_neg hp,
        List.takeWhile_cons_of_neg (by rw [← h x (List.mem_cons_self x xs)]; exact hp)]

theorem dropWhile_congr {p q : Nat → Bool} : ∀ (l : List Nat), (∀ x ∈ l, p x = q x) →
    l.dropWhile p = l.dropWhile q := by
  intro l
  induction l with
  | nil => intro _; rfl
  | cons x xs ih =>
    intro h
    by_cases hp : p x = true
    · rw [List.dropWhile_cons_of_pos hp,
        List.dropWhile_cons_of_pos (by rw [← h x (List.mem_cons_self x xs)]; exact hp),
        ih (fun y hy => h y (List.mem_cons_of_mem x hy))]
    · rw [List.dropWhile_cons_of_neg hp,
        List.dropWhile_cons_of_neg (by rw [← h x (List.mem_cons_self x xs)]; exact hp)]

theorem mem_of_mem_dropWhile {p : Nat → Bool} : ∀ {l : List Nat} {x : Nat},
    x ∈ l.dropWhile p → x ∈ l := by
  intro l
  induction l with
  | nil => intro x h; exact absurd h (by simp)
  | cons y ys ih =>
    intro x h
    by_cases hp : p y = true
    · rw [List.dropWhile_cons_of_pos hp] at h
      exact List.mem_cons_of_mem y (ih h)
    · rw [List.dropWhile_cons_of_neg hp] at h
      exact h

/-- Lowercasing a byte line commutes with splitting into runs. -/
theorem specRuns_map_lower : ∀ (n : Nat) (l : List Nat), l.length ≤ n →
    (∀ c ∈ l, c < 256) →
    specRuns (l.map toLowerByte) = (specRuns l).map (List.map toLowerByte) := by
  intro n
  induction n with
  | zero =>
    intro l h _
    rw [List.length_eq_zero.1 (Nat.le_zero.1 h)]
    rfl
  | succ n ih =>
    intro l h hb
    cases l with
    | nil => rfl
    | cons c rest =>
      have hc : c < 256 := hb c (List.mem_cons_self c rest)
      have hrest : ∀ x ∈ rest, x < 256 := fun x hx => hb x (List.mem_cons_of_mem c hx)
      have hlen : rest.length ≤ n := by
        simp only [List.length_cons] at h
        omega
      rw [List.map_cons, specRuns_cons, specRuns_cons, isSep_toLower hc]
      by_cases hs : isSep c
      · rw [if_pos hs, if_pos hs, ih rest hlen hrest]
      · rw [if_neg hs, if_neg hs]
        rw [List.takeWhile_map, List.dropWhile_map]
        rw [takeWhile_congr rest (fun x hx => by
          show (!isSep (toLowerByte x)) = !isSep x
          rw [isSep_toLower (hrest x hx)])]
        rw [dropWhile_congr rest (fun x hx => by
          show (!isSep (toLowerByte x)) = !isSep x
          rw [isSep_toLower (hrest x hx)])]
        rw [ih (rest.dropWhile (fun b => !isSep b))
          (Nat.le_trans (length_dropWhile_le_self _ _) hlen)
          (fun x hx => hrest x (mem_of_mem_dropWhile hx))]
        rw [List.map_cons, List.map_cons]

/-- `tokenizeLine` lowercases byte by byte, so scanning a pre-lowercased
line gives the same sentence. -/
theorem tokenizeAux_lower : ∀ (line : List Nat) (word : List Nat) (acc : List (List Nat)),
    (∀ c ∈ line, c < 256) →
    tokenizeAux line word acc = tokenizeAux (line.map toLowerByte) word acc := by
  intro line
  induction line with
  | nil => intro word acc _; rfl
  | cons c rest ih =>
    intro word acc hb
    have hc : c < 256 := hb c (List.mem_cons_self c rest)
    have hrest : ∀ x ∈ rest, x < 256 := fun x hx => hb x (List.mem_cons_of_mem c hx)
    rw [List.map_cons]
    show (if 31 ≤ word.length then (if word.isEmpty then acc else addToken acc word)
        else if isSep c then tokenizeAux rest [] (if word.isEmpty then acc else addToken acc word)
        else tokenizeAux rest (word ++ [toLowerByte c]) acc) =
      (if 31 ≤ word.length then (if word.isEmpty then acc else addToken acc word)
        else if isSep (toLowerByte c) then tokenizeAux (rest.map toLowerByte) []
          (if word.isEmpty then acc else addToken acc word)
        else tokenizeAux (rest.map toLowerByte) (word ++ [toLowerByte (toLowerByte c)]) acc)
    rw [isSep_toLower hc, toLower_idem hc]
    by_cases h31 : 31 ≤ word.length
    · rw [if_pos h31, if_pos h31]
    · rw [if_neg h31, if_neg h31]
      by_cases hs : isSep c
      · rw [if_pos hs, if_pos hs, ih [] _ hrest]
      · rw [if_neg hs, if_neg hs, ih (word ++ [toLowerByte c]) acc hrest]

/-- The scanning loop against the spec-side splitter, for pre-lowercased
lines whose runs stay under the 31-byte cut-off. -/
theorem tokenizeAux_spec : ∀ (line word : List Nat) (acc : List (List Nat)),
    (∀ c ∈ word, isSep c = false) →
    (∀ c ∈ line, toLowerByte c = c) →
    (∀ r ∈ specRuns (word ++ line), r.length ≤ 30) →
    tokenizeAux line word acc = (specRuns (word ++ line)).foldl addToken acc := by
  intro line
  induction line with
  | nil =>
    intro word acc hw _ hr
    by_cases hwe : word.isEmpty
    · rw [List.isEmpty_iff] at hwe
      subst hwe
      rfl
    · have hne : word ≠ [] := by
        intro h0
        rw [h0] at hwe
        exact hwe rfl
      have hdecomp : specRuns (word ++ []) = [word] := by
        rw [specRuns_word_append word [] hw hne]
        simp [specRuns, specRunsF]
      rw [hdecomp]
      show (if word.isEmpty then acc else addToken acc word) = _
      rw [if_neg hwe]
      rfl
  | cons c rest ih =>
    intro word acc hw hlow hr
    have hwlen : word.length ≤ 30 := by
      by_cases hne : word = []
      · rw [hne]
        simp
      · have := hr (word ++ (c :: rest).takeWhile (fun b => !isSep b))
          (by rw [specRuns_word_append word (c :: rest) hw hne]
              exact List.mem_cons_self _ _)
        simp only [List.length_append] at this
        omega
    have h31 : ¬ 31 ≤ word.length := by omega
    show (if 31 ≤ word.length then (if word.isEmpty then acc else addToken acc word)
        else if isSep c then tokenizeAux rest []
          (if word.isEmpty then acc else addToken acc word)
        else tokenizeAux rest (word ++ [toLowerByte c]) acc) = _
    rw [if_neg h31]
    by_cases hs : isSep c
    · rw [if_pos hs]
      by_cases hwe : word.isEmpty
      · rw [if_pos hwe]
        rw [List.isEmpty_iff] at hwe
        subst hwe
        rw [List.nil_append] at hr ⊢
        rw [specRuns_cons, if_pos hs] at hr ⊢
        exact ih [] acc (by simp) (fun x hx => hlow x (List.mem_cons_of_mem c hx)) hr
      · rw [if_neg hwe]
        have hne : word ≠ [] := by
          intro h0
          rw [h0] at hwe
          exact hwe rfl
        have hdecomp : specRuns (word ++ c :: rest) = word :: specRuns rest := by
          rw [specRuns_word_append word (c :: rest) hw hne]
          rw [List.takeWhile_cons_of_neg (by rw [hs]; simp),
            List.dropWhile_cons_of_neg (by rw [hs]; simp)]
          rw [List.append_nil, specRuns_cons, if_pos hs]
        rw [hdecomp] at hr ⊢
        rw [List.foldl_cons]
        refine ih [] (addToken acc word) (by simp)
          (fun x hx => hlow x (List.mem_cons_of_mem c hx)) ?_
        rw [List.nil_append]
        intro r hrr
        exact hr r (List.mem_cons_of_mem word hrr)
    · rw [if_neg hs]
      rw [hlow c (List.mem_cons_self c rest)]
      have hassoc : word ++ c :: rest = (word ++ [c]) ++ rest := by simp
      rw [hassoc] at hr
      rw [ih (word ++ [c]) acc ?_ (fun x hx => hlow x (List.mem_cons_of_mem c hx)) hr]
      · rw [hassoc]
      · intro x hx
        rcases List.mem_append.1 hx with h1 | h1
        · exact hw x h1
        · rw [List.mem_singleton.1 h1]
          simpa using hs

/-- C6 amended: on byte lines all of whose maximal non-separator runs
are at most 30 bytes long, `tokenizeLine` emits exactly the maximal
runs, in order, lowercased, with only tokens past the 128th discarded.
(When a run reaches 31 bytes the scan ends instead: that run's first
31 bytes become the final token and the rest of the line is dropped.) -/
theorem C6_tokenize_short_runs (line : List Nat)
    (hb : ∀ c ∈ line, c < 256)
    (hr : ∀ r ∈ specRuns line, r.length ≤ 30) :
    tokenizeLine line = specTokenize line := by
  unfold tokenizeLine
  rw [tokenizeAux_lower line [] [] hb]
  have hlow : ∀ c ∈ line.map toLowerByte, toLowerByte c = c := by
    intro c hc
    obtain ⟨x, hx, rfl⟩ := List.mem_map.1 hc
    exact toLower_idem (hb x hx)
  have hmap : specRuns (line.map toLowerByte) = (specRuns line).map (List.map toLowerByte) :=
    specRuns_map_lower line.length line (Nat.le_refl _) hb
  have hr2 : ∀ r ∈ specRuns ([] ++ line.map toLowerByte), r.length ≤ 30 := by
    rw [List.nil_append, hmap]
    intro r hrr
    obtain ⟨r0, hr0, rfl⟩ := List.mem_map.1 hrr
    rw [List.length_map]
    exact hr r0 hr0
  rw [tokenizeAux_spec (line.map toLowerByte) [] [] (by simp) hlow hr2]
  rw [List.nil_append, hmap, foldl_addToken]
  unfold specTokenize
  rw [List.map_map]
  rfl

unseal Rat.add Rat.mul Rat.inv Rat.sub in
/-- Witness for C6's amended theorem on seed scenario 1's line
`"Hello, World!  HELLO"`. -/
theorem C6_tokenize_short_runs_witness :
    (∀ c ∈ hwLine, c < 256) ∧ (∀ r ∈ specRuns hwLine, r.length ≤ 30) ∧
    tokenizeLine hwLine = specTokenize hwLine :=
  ⟨by decide, by decide, C6_tokenize_short_runs hwLine (by decide) (by decide)⟩

/-! ### Little-endian encode/decode round trips (C1) -/

theorem readLE_leBytes : ∀ (w n : Nat) (rest : List Nat),
    readLE w (leBytes w n ++ rest) = some (n % 2 ^ (8 * w), rest) := by
  intro w
  induction w with
  | zero =>
    intro n rest
    show some (0, rest) = some (n % 2 ^ 0, rest)
    rw [Nat.pow_zero, Nat.mod_one]
  | succ w ih =>
    intro n rest
    show (match readLE w (leBytes w (n / 256) ++ rest) with
      | some (m, r) => some (n % 256 + 256 * m, r)
      | none => none) = some (n % 2 ^ (8 * (w + 1)), rest)
    rw [ih]
    show some (n % 256 + 256 * (n / 256 % 2 ^ (8 * w)), rest) = _
    have hpow : 2 ^ (8 * (w + 1)) = 256 * 2 ^ (8 * w) := by
      rw [Nat.mul_succ, Nat.pow_add]
      ring
    rw [hpow, Nat.mod_mul]

theorem readExact_append : ∀ (l rest : List Nat),
    readExact l.length (l ++ rest) = some (l, rest) := by
  intro l
  induction l with
  | nil => intro rest; rfl
  | cons b bs ih =>
    intro rest
    show (match readExact bs.length (bs ++ rest) with
      | some (tok, r) => some (b :: tok, r)
      | none => none) = some (b :: bs, rest)
    rw [ih]

theorem readTokens_enc : ∀ (ts : List (List Nat)) (rest : List Nat),
    (∀ t ∈ ts, t.length < 2 ^ 16) →
    readTokens ts.length ((ts.map encToken).flatten ++ rest) = (ts, rest) := by
  intro ts
  induction ts with
  | nil => intro rest _; rfl
  | cons t ts ih =>
    intro rest hb
    have hmod : t.length % 2 ^ (8 * 2) = t.length :=
      Nat.mod_eq_of_lt (hb t (List.mem_cons_self t ts))
    show readTokens (ts.length + 1)
      ((encToken t ++ (ts.map encToken).flatten) ++ rest) = _
    have ihr := ih rest (fun x hx => hb x (List.mem_cons_of_mem t hx))
    unfold readTokens encToken
    simp only [List.append_assoc, readLE_leBytes, hmod, readExact_append]
    rw [show readTokens ts.length
        ((ts.map (fun t => leBytes 2 t.length ++ t)).flatten ++ rest) = (ts, rest) from ihr]

theorem loadVocabulary_save (v : Vocabulary)
    (hb : ∀ t ∈ v.idToToken, t.length < 2 ^ 16)
    (hsz : v.idToToken.length < 2 ^ 32) :
    (loadVocabulary (saveVocabBytes v)).idToToken = v.idToToken := by
  have hmod : v.idToToken.length % 2 ^ (8 * 4) = v.idToToken.length :=
    Nat.mod_eq_of_lt hsz
  have hrt := readTokens_enc v.idToToken [] hb
  rw [List.append_nil] at hrt
  unfold loadVocabulary saveVocabBytes
  simp only [readLE_leBytes, hmod, hrt]

theorem readPairs_enc : ∀ (ps : List (Nat × Nat)) (rest : List Nat),
    (∀ p ∈ ps, p.1 < 2 ^ 32 ∧ p.2 < 2 ^ 32) →
    readPairs ps.length
      ((ps.map (fun p => leBytes 4 p.1 ++ leBytes 4 p.2)).flatten ++ rest) = ps := by
  intro ps
  induction ps with
  | nil => intro rest _; rfl
  | cons p ps ih =>
    intro rest hb
    obtain ⟨h1, h2⟩ := hb p (List.mem_cons_self p ps)
    have hm1 : p.1 % 2 ^ (8 * 4) = p.1 := Nat.mod_eq_of_lt h1
    have hm2 : p.2 % 2 ^ (8 * 4) = p.2 := Nat.mod_eq_of_lt h2
    show readPairs (ps.length + 1)
      (((leBytes 4 p.1 ++ leBytes 4 p.2) ++
        (ps.map (fun p => leBytes 4 p.1 ++ leBytes 4 p.2)).flatten) ++ rest) = _
    unfold readPairs
    simp only [List.append_assoc, readLE_leBytes, hm1, hm2,
      ih rest (fun x hx => hb x (List.mem_cons_of_mem p hx))]

theorem readTriples_enc : ∀ (ps : List (Nat × Nat × Nat)) (rest : List Nat),
    (∀ p ∈ ps, p.1 < 2 ^ 32 ∧ p.2.1 < 2 ^ 32 ∧ p.2.2 < 2 ^ 32) →
    readTriples ps.length
      ((ps.map (fun t => leBytes 4 t.1 ++ leBytes 4 t.2.1 ++ leBytes 4 t.2.2)).flatten ++
        rest) = ps := by
  intro ps
  induction ps with
  | nil => intro rest _; rfl
  | cons p ps ih =>
    intro rest hb
    obtain ⟨h1, h2, h3⟩ := hb p (List.mem_cons_self p ps)
    have hm1 : p.1 % 2 ^ (8 * 4) = p.1 := Nat.mod_eq_of_lt h1
    have hm2 : p.2.1 % 2 ^ (8 * 4) = p.2.1 := Nat.mod_eq_of_lt h2
    have hm3 : p.2.2 % 2 ^ (8 * 4) = p.2.2 := Nat.mod_eq_of_lt h3
    show readTriples (ps.length + 1)
      (((leBytes 4 p.1 ++ leBytes 4 p.2.1 ++ leBytes 4 p.2.2) ++
        (ps.map (fun t => leBytes 4 t.1 ++ leBytes 4 t.2.1 ++ leBytes 4 t.2.2)).flatten) ++
        rest) = _
    have ihr := ih rest (fun x hx => hb x (List.mem_cons_of_mem p hx))
    simp only [List.append_assoc] at ihr
    unfold readTriples
    simp only [List.append_assoc, readLE_leBytes, hm1, hm2, hm3, ihr]

theorem readQuads_enc : ∀ (ps : List (Nat × Nat × Nat × Nat)) (rest : List Nat),
    (∀ p ∈ ps, p.1 < 2 ^ 32 ∧ p.2.1 < 2 ^ 32 ∧ p.2.2.1 < 2 ^ 32 ∧ p.2.2.2 < 2 ^ 32) →
    readQuads ps.length
      ((ps.map (fun t => leBytes 4 t.1 ++ leBytes 4 t.2.1 ++ leBytes 4 t.2.2.1 ++
        leBytes 4 t.2.2.2)).flatten ++ rest) = ps := by
  intro ps
  induction ps with
  | nil => intro rest _; rfl
  | cons p ps ih =>
    intro rest hb
    obtain ⟨h1, h2, h3, h4⟩ := hb p (List.mem_cons_self p ps)
    have hm1 : p.1 % 2 ^ (8 * 4) = p.1 := Nat.mod_eq_of_lt h1
    have hm2 : p.2.1 % 2 ^ (8 * 4) = p.2.1 := Nat.mod_eq_of_lt h2
    have hm3 : p.2.2.1 % 2 ^ (8 * 4) = p.2.2.1 := Nat.mod_eq_of_lt h3
    have hm4 : p.2.2.2 % 2 ^ (8 * 4) = p.2.2.2 := Nat.mod_eq_of_lt h4
    show readQuads (ps.length + 1)
      (((leBytes 4 p.1 ++ leBytes 4 p.2.1 ++ leBytes 4 p.2.2.1 ++ leBytes 4 p.2.2.2) ++
        (ps.map (fun t => leBytes 4 t.1 ++ leBytes 4 t.2.1 ++ leBytes 4 t.2.2.1 ++
          leBytes 4 t.2.2.2)).flatten) ++ rest) = _
    have ihr := ih rest (fun x hx => hb x (List.mem_cons_of_mem p hx))
    simp only [List.append_assoc] at ihr
    unfold readQuads
    simp only [List.append_assoc, readLE_leBytes, hm1, hm2, hm3, hm4, ihr]

/-! ### Trie insertion and enumeration (C1) -/

theorem getPath_nil_chain (p : List Nat) : getPath [] p = 0 := by
  unfold getPath
  rw [findNodePath_nil]

theorem findChild_cons (n : NgramNode) (ns : List NgramNode) (t : Nat) :
    findChild (n :: ns) t = (if n.tokenId = t then some n else findChild ns t) := rfl

theorem findNodePath_cons_eq (ns : List NgramNode) (t : Nat) (rest : List Nat) :
    findNodePath ns (t :: rest) =
      (match findChild ns t with
       | none => none
       | some n => if rest.isEmpty then some n else findNodePath n.children rest) := rfl

theorem updateFirst_cons (t : Nat) (f : NgramNode → NgramNode) (mk n : NgramNode)
    (ns : List NgramNode) :
    updateFirst t f mk (n :: ns) =
      (if n.tokenId = t then f n :: ns else n :: updateFirst t f mk ns) := rfl

theorem getPath_cons (ns : List NgramNode) (v : Nat) (p2 : List Nat) :
    getPath ns (v :: p2) =
      (match findChild ns v with
       | none => 0
       | some n => if p2.isEmpty then n.count else getPath n.children p2) := by
  unfold getPath
  rw [findNodePath_cons_eq]
  cases findChild ns v with
  | none => rfl
  | some n =>
    by_cases hp : p2.isEmpty
    · simp only [if_pos hp]
    · simp only [if_neg hp]

theorem findChild_updateFirst_self (t : Nat) (f : NgramNode → NgramNode) (mk : NgramNode)
    (hmk : mk.tokenId = t) (hf : ∀ n, (f n).tokenId = n.tokenId) :
    ∀ ns : List NgramNode, findChild (updateFirst t f mk ns) t =
      some (match findChild ns t with
            | some n => f n
            | none => mk) := by
  intro ns
  induction ns with
  | nil =>
    show findChild [mk] t = some mk
    rw [findChild_cons, if_pos hmk]
  | cons n ns ih =>
    rw [updateFirst_cons]
    by_cases h : n.tokenId = t
    · rw [if_pos h]
      have hrhs : findChild (n :: ns) t = some n := by
        rw [findChild_cons, if_pos h]
      simp only [hrhs]
      show findChild (f n :: ns) t = some (f n)
      rw [findChild_cons, if_pos (by rw [hf n]; exact h)]
    · rw [if_neg h]
      have hrhs : findChild (n :: ns) t = findChild ns t := by
        rw [findChild_cons, if_neg h]
      simp only [hrhs]
      rw [findChild_cons, if_neg h]
      exact ih

theorem findChild_updateFirst_ne (t u : Nat) (f : NgramNode → NgramNode) (mk : NgramNode)
    (hmk : mk.tokenId = t) (hf : ∀ n, (f n).tokenId = n.tokenId) (hu : u ≠ t) :
    ∀ ns : List NgramNode, findChild (updateFirst t f mk ns) u = findChild ns u := by
  intro ns
  induction ns with
  | nil =>
    show findChild [mk] u = none
    rw [findChild_cons, if_neg (by rw [hmk]; exact fun h0 => hu h0.symm)]
    rfl
  | cons n ns ih =>
    rw [updateFirst_cons]
    by_cases h : n.tokenId = t
    · rw [if_pos h]
      have hcond : ¬ (f n).tokenId = u := by
        rw [hf n, h]
        exact fun h0 => hu h0.symm
      have hcond2 : ¬ n.tokenId = u := by
        rw [h]
        exact fun h0 => hu h0.symm
      rw [findChild_cons, if_neg hcond, findChild_cons, if_neg hcond2]
    · rw [if_neg h]
      by_cases h2 : n.tokenId = u
      · rw [findChild_cons, if_pos h2, findChild_cons, if_pos h2]
      · rw [findChild_cons, if_neg h2, findChild_cons, if_neg h2]
        exact ih

/-- The count of any non-empty path after one trie insertion: the
inserted path's count grows by `delta`, every other path is
untouched. -/
theorem getPath_addNgramList (delta : Nat) :
    ∀ (toks : List Nat), toks ≠ [] → ∀ (ns : List NgramNode) (p : List Nat), p ≠ [] →
      getPath (addNgramList delta toks ns) p =
        (if p = toks then getPath ns p + delta else getPath ns p) := by
  intro toks
  induction toks with
  | nil => intro h; exact absurd rfl h
  | cons t rest ih =>
    intro _ ns p hp
    obtain ⟨v, p2, rfl⟩ : ∃ v p2, p = v :: p2 := by
      cases p with
      | nil => exact absurd rfl hp
      | cons v p2 => exact ⟨v, p2, rfl⟩
    cases rest with
    | nil =>
      show getPath (updateFirst t (fun n => .mk n.tokenId (n.count + delta) n.children)
          (.mk t delta []) ns) (v :: p2) = _
      by_cases hv : v = t
      · subst hv
        cases hfc : findChild ns v with
        | none =>
          rw [getPath_cons,
            findChild_updateFirst_self v
              (fun n => NgramNode.mk n.tokenId (n.count + delta) n.children)
              (NgramNode.mk v delta []) rfl (fun n => rfl) ns, hfc]
          by_cases hp2 : p2 = []
          · subst hp2
            rw [if_pos rfl, getPath_cons, hfc]
            simp [NgramNode.count]
          · have h2 : ¬ p2.isEmpty = true := by simpa [List.isEmpty_iff] using hp2
            rw [if_neg (by simp [hp2]), getPath_cons, hfc]
            dsimp only [NgramNode.count, NgramNode.children]
            rw [if_neg h2]
            exact getPath_nil_chain p2
        | some n =>
          rw [getPath_cons,
            findChild_updateFirst_self v
              (fun n => NgramNode.mk n.tokenId (n.count + delta) n.children)
              (NgramNode.mk v delta []) rfl (fun n => rfl) ns, hfc]
          by_cases hp2 : p2 = []
          · subst hp2
            rw [if_pos rfl, getPath_cons, hfc]
            simp [NgramNode.count]
          · have h2 : ¬ p2.isEmpty = true := by simpa [List.isEmpty_iff] using hp2
            rw [if_neg (by simp [hp2]), getPath_cons, hfc]
            dsimp only [NgramNode.count, NgramNode.children]
            rw [if_neg h2, if_neg h2]
      · rw [if_neg (by simp [hv]), getPath_cons, getPath_cons,
          findChild_updateFirst_ne t v
            (fun n => NgramNode.mk n.tokenId (n.count + delta) n.children)
            (NgramNode.mk t delta []) rfl (fun n => rfl) hv ns]
    | cons u rest2 =>
      have htoks2 : u :: rest2 ≠ [] := by simp
      show getPath (updateFirst t
          (fun n => .mk n.tokenId n.count (addNgramList delta (u :: rest2) n.children))
          (.mk t 0 (addNgramList delta (u :: rest2) [])) ns) (v :: p2) = _
      by_cases hv : v = t
      · subst hv
        cases hfc : findChild ns v with
        | none =>
          rw [getPath_cons,
            findChild_updateFirst_self v
              (fun n => NgramNode.mk n.tokenId n.count
                (addNgramList delta (u :: rest2) n.children))
              (NgramNode.mk v 0 (addNgramList delta (u :: rest2) []))
              rfl (fun n => rfl) ns, hfc]
          by_cases hp2 : p2 = []
          · subst hp2
            rw [if_neg (by simp), getPath_cons, hfc]
            simp [NgramNode.count]
          · have h2 : ¬ p2.isEmpty = true := by simpa [List.isEmpty_iff] using hp2
            rw [getPath_cons, hfc]
            dsimp only [NgramNode.count, NgramNode.children]
            rw [if_neg h2]
            rw [ih htoks2 [] p2 hp2, getPath_nil_chain]
            by_cases hpt : p2 = u :: rest2
            · rw [if_pos hpt, if_pos (by rw [hpt])]
            · rw [if_neg hpt, if_neg (by simp [hpt])]
        | some n =>
          obtain ⟨nt, nc, ncs⟩ := n
          rw [getPath_cons,
            findChild_updateFirst_self v
              (fun n => NgramNode.mk n.tokenId n.count
                (addNgramList delta (u :: rest2) n.children))
              (NgramNode.mk v 0 (addNgramList delta (u :: rest2) []))
              rfl (fun n => rfl) ns, hfc]
          by_cases hp2 : p2 = []
          · subst hp2
            rw [if_neg (by simp), getPath_cons, hfc]
            simp [NgramNode.count]
          · have h2 : ¬ p2.isEmpty = true := by simpa [List.isEmpty_iff] using hp2
            rw [getPath_cons, hfc]
            dsimp only [NgramNode.count, NgramNode.children]
            rw [if_neg h2, if_neg h2]
            rw [ih htoks2 ncs p2 hp2]
            by_cases hpt : p2 = u :: rest2
            · rw [if_pos hpt, if_pos (by rw [hpt])]
            · rw [if_neg hpt, if_neg (by simp [hpt])]
      · rw [if_neg (by simp [hv]), getPath_cons, getPath_cons,
          findChild_updateFirst_ne t v
            (fun n => NgramNode.mk n.tokenId n.count (addNgramList delta (u :: rest2) n.children))
            (NgramNode.mk t 0 (addNgramList delta (u :: rest2) [])) rfl (fun n => rfl) hv ns]

theorem addNgramWithCount_maxN (g : NgramIndex) (ts : List Nat) (n c : Nat) :
    (addNgramWithCount g ts n c).maxN = g.maxN := by
  unfold addNgramWithCount
  split
  · rfl
  · rfl

/-- One `addNgramWithCount` step, seen through `getPath`: the count at
`p` grows by the entry's count exactly when the entry spells `p`. -/
theorem getPath_addOne (g : NgramIndex) (e : List Nat × Nat) (d : Nat)
    (hg : g.maxN = 3) (hd1 : 1 ≤ d) (hd3 : d ≤ 3) (hlen : e.1.length = d)
    (p : List Nat) (hp : p ≠ []) :
    getPath (addNgramWithCount g e.1 d e.2).rootChildren p =
      getPath g.rootChildren p + (if e.1 = p then e.2 else 0) := by
  unfold addNgramWithCount
  split
  · rename_i hcond
    have h1 : ¬ d < 1 := by omega
    have h2 : ¬ g.maxN < d := by rw [hg]; omega
    have h3 : ¬ e.1.length < d := by rw [hlen]; omega
    have hc0 : e.2 = 0 := by
      simp [h1, h2, h3] at hcond
      exact hcond
    simp [hc0]
  · show getPath (addNgramList e.2 (e.1.take d) g.rootChildren) p = _
    rw [show e.1.take d = e.1 from by rw [← hlen]; exact List.take_length e.1]
    rw [getPath_addNgramList e.2 e.1
      (by intro h0; rw [h0] at hlen; simp at hlen; omega) g.rootChildren p hp]
    by_cases hpe : p = e.1
    · rw [if_pos hpe, if_pos hpe.symm]
    · rw [if_neg hpe, if_neg (fun h0 => hpe h0.symm)]
      exact (Nat.add_zero _).symm

/-- A whole record list folded with `addNgramWithCount` at a fixed
order `d`: each path gains the sum of the counts of the records that
spell it. -/
theorem getPath_foldAdd (d : Nat) (hd1 : 1 ≤ d) (hd3 : d ≤ 3) :
    ∀ (es : List (List Nat × Nat)) (g : NgramIndex), g.maxN = 3 →
      (∀ e ∈ es, e.1.length = d) → ∀ p : List Nat, p ≠ [] →
      getPath ((es.foldl (fun g e => addNgramWithCount g e.1 d e.2) g).rootChildren) p =
        getPath g.rootChildren p +
          ((es.filter (fun e => e.1 == p)).map (fun e => e.2)).sum := by
  intro es
  induction es with
  | nil =>
    intro g hg hlen p hp
    simp
  | cons e es ih =>
    intro g hg hlen p hp
    rw [List.foldl_cons,
      ih (addNgramWithCount g e.1 d e.2) (by rw [addNgramWithCount_maxN]; exact hg)
        (fun x hx => hlen x (List.mem_cons_of_mem e hx)) p hp,
      getPath_addOne g e d hg hd1 hd3 (hlen e (List.mem_cons_self e es)) p hp]
    by_cases hep : e.1 = p
    · rw [if_pos hep, List.filter_cons_of_pos (by simpa using hep), List.map_cons,
        List.sum_cons]
      omega
    · rw [if_neg hep, List.filter_cons_of_neg (by simpa using hep)]
      omega

theorem foldl_add_maxN {α : Type} (f : α → List Nat) (d : Nat) (cf : α → Nat) :
    ∀ (l : List α) (g : NgramIndex),
      (l.foldl (fun g e => addNgramWithCount g (f e) d (cf e)) g).maxN = g.maxN := by
  intro l
  induction l with
  | nil => intro g; rfl
  | cons e l ih =>
    intro g
    rw [List.foldl_cons, ih, addNgramWithCount_maxN]

theorem pathsWithCounts_one (ns : List NgramNode) :
    pathsWithCounts 1 ns = ns.map (fun n => ([n.tokenId], n.count)) := rfl

theorem pathsWithCounts_succ_succ (s : Nat) (ns : List NgramNode) :
    pathsWithCounts (s + 2) ns =
      ns.flatMap (fun a => (pathsWithCounts (s + 1) a.children).map
        (fun e => (a.tokenId :: e.1, e.2))) := rfl

theorem pathsWithCounts_length :
    ∀ (d : Nat) (ns : List NgramNode), ∀ e ∈ pathsWithCounts d ns, e.1.length = d := by
  intro d
  induction d with
  | zero =>
    intro ns e he
    exact absurd he (by simp [pathsWithCounts])
  | succ d ih =>
    intro ns e he
    cases d with
    | zero =>
      rw [pathsWithCounts_one] at he
      obtain ⟨n, _, rfl⟩ := List.mem_map.mp he
      rfl
    | succ s =>
      rw [pathsWithCounts_succ_succ] at he
      obtain ⟨a, _, he2⟩ := List.mem_flatMap.mp he
      obtain ⟨x, hx, rfl⟩ := List.mem_map.mp he2
      have := ih a.children x hx
      simp [this]

theorem filter_paths_other_depth (d : Nat) (ns : List NgramNode) (p : List Nat)
    (h : p.length ≠ d) : (pathsWithCounts d ns).filter (fun e => e.1 == p) = [] := by
  rw [List.filter_eq_nil_iff]
  intro e he
  simp only [beq_iff_eq]
  intro h0
  exact h (by rw [← h0]; exact pathsWithCounts_length d ns e he)

theorem wfTo_cons (d : Nat) (a : NgramNode) (ns : List NgramNode)
    (h : wfTo (d + 1) (a :: ns) = true) :
    (∀ b ∈ ns, b.tokenId ≠ a.tokenId) ∧ wfTo d a.children = true ∧
      wfTo (d + 1) ns = true := by
  have h' : (!(ns.map (fun n => n.tokenId)).contains a.tokenId &&
      nodupIds (ns.map (fun n => n.tokenId)) &&
      (wfTo d a.children && ns.all (fun n => wfTo d n.children))) = true := h
  simp only [Bool.and_eq_true, Bool.not_eq_true'] at h'
  obtain ⟨⟨hnc, hnd⟩, hwa, hall⟩ := h'
  refine ⟨?_, hwa, ?_⟩
  · intro b hb hbe
    have hmem : a.tokenId ∈ ns.map (fun n => n.tokenId) :=
      List.mem_map.mpr ⟨b, hb, hbe⟩
    have hcn : (ns.map (fun n => n.tokenId)).contains a.tokenId = true :=
      List.elem_eq_true_of_mem hmem
    rw [hnc] at hcn
    exact Bool.false_ne_true hcn
  · show (nodupIds (ns.map (fun n => n.tokenId)) &&
      ns.all (fun n => wfTo d n.children)) = true
    rw [hnd, hall]
    rfl

theorem wfTo_mono : ∀ (d : Nat) (ns : List NgramNode),
    wfTo (d + 1) ns = true → wfTo d ns = true := by
  intro d
  induction d with
  | zero => intro ns _; rfl
  | succ s ih =>
    intro ns h
    have h' : (nodupIds (ns.map (fun n => n.tokenId)) &&
        ns.all (fun n => wfTo (s + 1) n.children)) = true := h
    simp only [Bool.and_eq_true, List.all_eq_true] at h'
    show (nodupIds (ns.map (fun n => n.tokenId)) &&
        ns.all (fun n => wfTo s n.children)) = true
    simp only [Bool.and_eq_true, List.all_eq_true]
    exact ⟨h'.1, fun n hn => ih n.children (h'.2 n hn)⟩

/-- At depth `d` of a trie whose sibling ids are distinct, the records
spelling a given path `p` of length `d` sum exactly to the stored
count of `p`. -/
theorem sum_paths_eq_getPath :
    ∀ (d : Nat) (ns : List NgramNode) (p : List Nat), p.length = d →
      wfTo d ns = true →
      (((pathsWithCounts d ns).filter (fun e => e.1 == p)).map (fun e => e.2)).sum =
        getPath ns p := by
  intro d
  induction d with
  | zero =>
    intro ns p hlen _
    have hp : p = [] := List.length_eq_zero.mp hlen
    subst hp
    rfl
  | succ d ih =>
    intro ns p hlen hwf
    obtain ⟨v, p2, rfl⟩ : ∃ v p2, p = v :: p2 := by
      cases p with
      | nil => simp at hlen
      | cons v p2 => exact ⟨v, p2, rfl⟩
    have hl2 : p2.length = d := by simpa using hlen
    cases d with
    | zero =>
      have hp2 : p2 = [] := List.length_eq_zero.mp hl2
      subst hp2
      clear ih hlen hl2
      induction ns with
      | nil => rfl
      | cons a ns ihn =>
        obtain ⟨hnodup, _, hwt⟩ := wfTo_cons 0 a ns hwf
        rw [pathsWithCounts_one, List.map_cons]
        by_cases hv : a.tokenId = v
        · rw [List.filter_cons_of_pos (by simp [hv]), List.map_cons, List.sum_cons]
          have hrest : ((ns.map (fun n => ([n.tokenId], n.count))).filter
              (fun e => e.1 == [v])) = [] := by
            rw [List.filter_eq_nil_iff]
            intro e he
            obtain ⟨b, hb, rfl⟩ := List.mem_map.mp he
            simp only [beq_iff_eq, List.cons.injEq, and_true]
            intro h0
            exact hnodup b hb (by rw [h0, hv])
          rw [hrest]
          rw [getPath_cons (a :: ns) v [], findChild_cons, if_pos hv]
          simp
        · rw [List.filter_cons_of_neg (by simp [hv])]
          have := ihn hwt
          rw [pathsWithCounts_one] at this
          rw [this, getPath_cons (a :: ns) v [], findChild_cons, if_neg hv,
            ← getPath_cons]
    | succ s =>
      have hp2ne : p2 ≠ [] := by
        intro h0
        rw [h0] at hl2
        simp at hl2
      induction ns with
      | nil => rfl
      | cons a ns ihn =>
        obtain ⟨hnodup, hwa, hwt⟩ := wfTo_cons (s + 1) a ns hwf
        rw [pathsWithCounts_succ_succ, List.flatMap_cons, List.filter_append,
          List.map_append, List.sum_append]
        by_cases hv : a.tokenId = v
        · have hblock : (((pathsWithCounts (s + 1) a.children).map
              (fun e => (a.tokenId :: e.1, e.2))).filter (fun e => e.1 == v :: p2)) =
              ((pathsWithCounts (s + 1) a.children).filter
                (fun e => e.1 == p2)).map (fun e => (a.tokenId :: e.1, e.2)) := by
            rw [List.filter_map]
            congr 1
            apply List.filter_congr
            intro x _
            show ((a.tokenId :: x.1, x.2).1 == v :: p2) = (x.1 == p2)
            simp [hv]
          rw [hblock, List.map_map]
          have hsum1 : (((pathsWithCounts (s + 1) a.children).filter
              (fun e => e.1 == p2)).map
                ((fun e => e.2) ∘ (fun e => (a.tokenId :: e.1, e.2)))).sum =
              getPath a.children p2 := by
            have := ih a.children p2 hl2 hwa
            rw [← this]
            rfl
          rw [hsum1]
          have hrest : ((ns.flatMap (fun b => (pathsWithCounts (s + 1) b.children).map
              (fun e => (b.tokenId :: e.1, e.2)))).filter
                (fun e => e.1 == v :: p2)) = [] := by
            rw [List.filter_eq_nil_iff]
            intro e he
            obtain ⟨b, hb, he2⟩ := List.mem_flatMap.mp he
            obtain ⟨x, _, rfl⟩ := List.mem_map.mp he2
            simp only [beq_iff_eq, List.cons.injEq, not_and]
            intro h0 _
            exact hnodup b hb (by rw [h0, hv])
          rw [hrest]
          rw [getPath_cons (a :: ns) v p2, findChild_cons, if_pos hv]
          dsimp only
          rw [if_neg (by simpa [List.isEmpty_iff] using hp2ne)]
          simp
        · have hblock : (((pathsWithCounts (s + 1) a.children).map
              (fun e => (a.tokenId :: e.1, e.2))).filter (fun e => e.1 == v :: p2)) = [] := by
            rw [List.filter_eq_nil_iff]
            intro e he
            obtain ⟨x, _, rfl⟩ := List.mem_map.mp he
            simp only [beq_iff_eq, List.cons.injEq, not_and]
            intro h0 _
            exact hv h0
          rw [hblock]
          have := ihn hwt
          rw [pathsWithCounts_succ_succ] at this
          rw [this, getPath_cons (a :: ns) v p2, findChild_cons, if_neg hv,
            ← getPath_cons]
          simp

theorem pathsWithCounts_two (ns : List NgramNode) :
    pathsWithCounts 2 ns = ns.flatMap (fun a => (pathsWithCounts 1 a.children).map
      (fun e => (a.tokenId :: e.1, e.2))) := rfl

theorem pathsWithCounts_three (ns : List NgramNode) :
    pathsWithCounts 3 ns = ns.flatMap (fun a => (pathsWithCounts 2 a.children).map
      (fun e => (a.tokenId :: e.1, e.2))) := rfl

theorem uniPairs_paths (idx : NgramIndex) :
    (uniPairs idx).map (fun q => ([q.1], q.2)) = pathsWithCounts 1 idx.rootChildren := by
  rw [pathsWithCounts_one]
  unfold uniPairs
  rw [List.map_map]
  rfl

theorem biTriples_paths (idx : NgramIndex) :
    (biTriples idx).map (fun t => ([t.1, t.2.1], t.2.2)) =
      pathsWithCounts 2 idx.rootChildren := by
  rw [pathsWithCounts_two]
  unfold biTriples
  rw [List.map_flatMap]
  apply congrArg
  funext a
  rw [List.map_map, pathsWithCounts_one, List.map_map]
  rfl

theorem triQuads_paths (idx : NgramIndex) :
    (triQuads idx).map (fun t => ([t.1, t.2.1, t.2.2.1], t.2.2.2)) =
      pathsWithCounts 3 idx.rootChildren := by
  rw [pathsWithCounts_three]
  unfold triQuads
  rw [List.map_flatMap]
  apply congrArg
  funext a
  rw [List.map_flatMap, pathsWithCounts_two, List.map_flatMap]
  apply congrArg
  funext b
  simp only [List.map_map, pathsWithCounts_one]
  rfl

theorem uniPairs_bounds (idx : NgramIndex) (h : nodesOk 3 idx.rootChildren = true) :
    ∀ q ∈ uniPairs idx, q.1 < 2 ^ 32 ∧ q.2 < 2 ^ 32 := by
  intro q hq
  obtain ⟨n, hn, rfl⟩ := List.mem_map.mp hq
  have h3 : idx.rootChildren.all (fun n => decide (n.tokenId < 2 ^ 32) &&
      decide (n.count < 2 ^ 32) && nodesOk 2 n.children) = true := h
  rw [List.all_eq_true] at h3
  have hn2 := h3 n hn
  simp only [Bool.and_eq_true, decide_eq_true_eq] at hn2
  exact ⟨hn2.1.1, hn2.1.2⟩

theorem biTriples_bounds (idx : NgramIndex) (h : nodesOk 3 idx.rootChildren = true) :
    ∀ t ∈ biTriples idx, t.1 < 2 ^ 32 ∧ t.2.1 < 2 ^ 32 ∧ t.2.2 < 2 ^ 32 := by
  intro t ht
  obtain ⟨a, ha, ht2⟩ := List.mem_flatMap.mp ht
  obtain ⟨b, hb, rfl⟩ := List.mem_map.mp ht2
  have h3 : idx.rootChildren.all (fun n => decide (n.tokenId < 2 ^ 32) &&
      decide (n.count < 2 ^ 32) && nodesOk 2 n.children) = true := h
  rw [List.all_eq_true] at h3
  have ha2 := h3 a ha
  simp only [Bool.and_eq_true, decide_eq_true_eq] at ha2
  have h2 : a.children.all (fun n => decide (n.tokenId < 2 ^ 32) &&
      decide (n.count < 2 ^ 32) && nodesOk 1 n.children) = true := ha2.2
  rw [List.all_eq_true] at h2
  have hb2 := h2 b hb
  simp only [Bool.and_eq_true, decide_eq_true_eq] at hb2
  exact ⟨ha2.1.1, hb2.1.1, hb2.1.2⟩

theorem triQuads_bounds (idx : NgramIndex) (h : nodesOk 3 idx.rootChildren = true) :
    ∀ t ∈ triQuads idx,
      t.1 < 2 ^ 32 ∧ t.2.1 < 2 ^ 32 ∧ t.2.2.1 < 2 ^ 32 ∧ t.2.2.2 < 2 ^ 32 := by
  intro t ht
  obtain ⟨a, ha, ht2⟩ := List.mem_flatMap.mp ht
  obtain ⟨b, hb, ht3⟩ := List.mem_flatMap.mp ht2
  obtain ⟨c, hc, rfl⟩ := List.mem_map.mp ht3
  have h3 : idx.rootChildren.all (fun n => decide (n.tokenId < 2 ^ 32) &&
      decide (n.count < 2 ^ 32) && nodesOk 2 n.children) = true := h
  rw [List.all_eq_true] at h3
  have ha2 := h3 a ha
  simp only [Bool.and_eq_true, decide_eq_true_eq] at ha2
  have h2 : a.children.all (fun n => decide (n.tokenId < 2 ^ 32) &&
      decide (n.count < 2 ^ 32) && nodesOk 1 n.children) = true := ha2.2
  rw [List.all_eq_true] at h2
  have hb2 := h2 b hb
  simp only [Bool.and_eq_true, decide_eq_true_eq] at hb2
  have h1 : b.children.all (fun n => decide (n.tokenId < 2 ^ 32) &&
      decide (n.count < 2 ^ 32) && nodesOk 0 n.children) = true := hb2.2
  rw [List.all_eq_true] at h1
  have hc2 := h1 c hc
  simp only [Bool.and_eq_true, decide_eq_true_eq] at hc2
  exact ⟨ha2.1.1, hb2.1.1, hc2.1.1, hc2.1.2⟩

theorem loadUni_save (m0 m : LMModel) (htt : m.totalTokens < 2 ^ 64)
    (hL : (uniPairs m.ngrams).length < 2 ^ 32)
    (hbp : ∀ q ∈ uniPairs m.ngrams, q.1 < 2 ^ 32 ∧ q.2 < 2 ^ 32) :
    loadUni m0 (saveUniBytes m) =
      { m0 with totalTokens := m.totalTokens,
                ngrams := (uniPairs m.ngrams).foldl
                  (fun g q => addNgramWithCount g [q.1] 1 q.2) m0.ngrams } := by
  have h64 : m.totalTokens % 2 ^ (8 * 8) = m.totalTokens := Nat.mod_eq_of_lt htt
  have h32 : (uniPairs m.ngrams).length % 2 ^ (8 * 4) = (uniPairs m.ngrams).length :=
    Nat.mod_eq_of_lt hL
  have hrp : readPairs (uniPairs m.ngrams).length
      ((uniPairs m.ngrams).map (fun p => leBytes 4 p.1 ++ leBytes 4 p.2)).flatten =
      uniPairs m.ngrams := by
    have h0 := readPairs_enc (uniPairs m.ngrams) [] hbp
    rwa [List.append_nil] at h0
  unfold loadUni saveUniBytes
  simp only [List.append_assoc, readLE_leBytes, h64, h32, hrp]

theorem loadBi_save (m0 m : LMModel)
    (hL : (biTriples m.ngrams).length < 2 ^ 32)
    (hbp : ∀ t ∈ biTriples m.ngrams, t.1 < 2 ^ 32 ∧ t.2.1 < 2 ^ 32 ∧ t.2.2 < 2 ^ 32) :
    loadBi m0 (saveBiBytes m) =
      { m0 with ngrams := (biTriples m.ngrams).foldl
                  (fun g t => addNgramWithCount g [t.1, t.2.1] 2 t.2.2) m0.ngrams } := by
  have h32 : (biTriples m.ngrams).length % 2 ^ (8 * 4) = (biTriples m.ngrams).length :=
    Nat.mod_eq_of_lt hL
  have hrt : readTriples (biTriples m.ngrams).length
      ((biTriples m.ngrams).map
        (fun t => leBytes 4 t.1 ++ leBytes 4 t.2.1 ++ leBytes 4 t.2.2)).flatten =
      biTriples m.ngrams := by
    have h0 := readTriples_enc (biTriples m.ngrams) [] hbp
    rwa [List.append_nil] at h0
  simp only [List.append_assoc] at hrt
  unfold loadBi saveBiBytes
  simp only [List.append_assoc, readLE_leBytes, h32, hrt]

theorem loadTri_save (m0 m : LMModel)
    (hL : (triQuads m.ngrams).length < 2 ^ 32)
    (hbp : ∀ t ∈ triQuads m.ngrams,
      t.1 < 2 ^ 32 ∧ t.2.1 < 2 ^ 32 ∧ t.2.2.1 < 2 ^ 32 ∧ t.2.2.2 < 2 ^ 32) :
    loadTri m0 (saveTriBytes m) =
      { m0 with ngrams := (triQuads m.ngrams).foldl
                  (fun g t => addNgramWithCount g [t.1, t.2.1, t.2.2.1] 3 t.2.2.2)
                  m0.ngrams } := by
  have h32 : (triQuads m.ngrams).length % 2 ^ (8 * 4) = (triQuads m.ngrams).length :=
    Nat.mod_eq_of_lt hL
  have hrq : readQuads (triQuads m.ngrams).length
      ((triQuads m.ngrams).map
        (fun t => leBytes 4 t.1 ++ leBytes 4 t.2.1 ++ leBytes 4 t.2.2.1 ++
          leBytes 4 t.2.2.2)).flatten = triQuads m.ngrams := by
    have h0 := readQuads_enc (triQuads m.ngrams) [] hbp
    rwa [List.append_nil] at h0
  simp only [List.append_assoc] at hrq
  unfold loadTri saveTriBytes
  simp only [List.append_assoc, readLE_leBytes, h32, hrq]

/-- Loading the four saved files into a fresh `maxN = 3` model, fully
evaluated: the vocabulary is re-read, `totalTokens` restored, and the
trie rebuilt by the three record folds. -/
theorem loadModel_save (m : LMModel)
    (htt : m.totalTokens < 2 ^ 64)
    (hnodes : nodesOk 3 m.ngrams.rootChildren = true)
    (hL1 : (uniPairs m.ngrams).length < 2 ^ 32)
    (hL2 : (biTriples m.ngrams).length < 2 ^ 32)
    (hL3 : (triQuads m.ngrams).length < 2 ^ 32) :
    loadModel (createLMModel 3) (saveModelBytes m).1 (saveModelBytes m).2.1
        (saveModelBytes m).2.2.1 (saveModelBytes m).2.2.2 =
      { vocab := loadVocabulary (saveVocabBytes m.vocab),
        ngrams := (triQuads m.ngrams).foldl
            (fun g t => addNgramWithCount g [t.1, t.2.1, t.2.2.1] 3 t.2.2.2)
          ((biTriples m.ngrams).foldl (fun g t => addNgramWithCount g [t.1, t.2.1] 2 t.2.2)
          ((uniPairs m.ngrams).foldl (fun g q => addNgramWithCount g [q.1] 1 q.2)
            (createNgramIndex 3))),
        maxN := 3, totalTokens := m.totalTokens } := by
  show loadTri (loadBi (loadUni
      { createLMModel 3 with vocab := loadVocabulary (saveVocabBytes m.vocab) }
      (saveUniBytes m)) (saveBiBytes m)) (saveTriBytes m) = _
  rw [loadUni_save _ m htt hL1 (uniPairs_bounds m.ngrams hnodes),
    loadBi_save _ m hL2 (biTriples_bounds m.ngrams hnodes),
    loadTri_save _ m hL3 (triQuads_bounds m.ngrams hnodes)]
  rfl

theorem fold3_maxN (m : LMModel) :
    ((triQuads m.ngrams).foldl
        (fun g t => addNgramWithCount g [t.1, t.2.1, t.2.2.1] 3 t.2.2.2)
      ((biTriples m.ngrams).foldl (fun g t => addNgramWithCount g [t.1, t.2.1] 2 t.2.2)
      ((uniPairs m.ngrams).foldl (fun g q => addNgramWithCount g [q.1] 1 q.2)
        (createNgramIndex 3)))).maxN = 3 := by
  have h1 : ∀ g : NgramIndex,
      ((uniPairs m.ngrams).foldl (fun g q => addNgramWithCount g [q.1] 1 q.2) g).maxN =
        g.maxN :=
    fun g => foldl_add_maxN (fun q : Nat × Nat => [q.1]) 1 (fun q => q.2) _ g
  have h2 : ∀ g : NgramIndex,
      ((biTriples m.ngrams).foldl
        (fun g t => addNgramWithCount g [t.1, t.2.1] 2 t.2.2) g).maxN =
        g.maxN :=
    fun g => foldl_add_maxN (fun t : Nat × Nat × Nat => [t.1, t.2.1]) 2 (fun t => t.2.2) _ g
  have h3 : ∀ g : NgramIndex,
      ((triQuads m.ngrams).foldl
        (fun g t => addNgramWithCount g [t.1, t.2.1, t.2.2.1] 3 t.2.2.2) g).maxN =
        g.maxN :=
    fun g => foldl_add_maxN (fun t : Nat × Nat × Nat × Nat => [t.1, t.2.1, t.2.2.1]) 3
      (fun t => t.2.2.2) _ g
  rw [h3, h2, h1]
  rfl

/-- The rebuilt trie agrees with the original on every non-empty path
of length at most 3, provided sibling ids are distinct. -/
theorem loaded_root_getPath (m : LMModel)
    (hwf : wfTo 3 m.ngrams.rootChildren = true)
    (p : List Nat) (hp : p ≠ []) (hp3 : p.length ≤ 3) :
    getPath (((triQuads m.ngrams).foldl
        (fun g t => addNgramWithCount g [t.1, t.2.1, t.2.2.1] 3 t.2.2.2)
      ((biTriples m.ngrams).foldl (fun g t => addNgramWithCount g [t.1, t.2.1] 2 t.2.2)
      ((uniPairs m.ngrams).foldl (fun g q => addNgramWithCount g [q.1] 1 q.2)
        (createNgramIndex 3)))).rootChildren) p =
      getPath m.ngrams.rootChildren p := by
  have e1 : ∀ g : NgramIndex,
      (uniPairs m.ngrams).foldl (fun g q => addNgramWithCount g [q.1] 1 q.2) g =
      ((uniPairs m.ngrams).map (fun q => ([q.1], q.2))).foldl
        (fun g e => addNgramWithCount g e.1 1 e.2) g :=
    fun g => (List.foldl_map (fun q : Nat × Nat => ([q.1], q.2))
      (fun g e => addNgramWithCount g e.1 1 e.2) (uniPairs m.ngrams) g).symm
  have e2 : ∀ g : NgramIndex,
      (biTriples m.ngrams).foldl (fun g t => addNgramWithCount g [t.1, t.2.1] 2 t.2.2) g =
      ((biTriples m.ngrams).map (fun t => ([t.1, t.2.1], t.2.2))).foldl
        (fun g e => addNgramWithCount g e.1 2 e.2) g :=
    fun g => (List.foldl_map (fun t : Nat × Nat × Nat => ([t.1, t.2.1], t.2.2))
      (fun g e => addNgramWithCount g e.1 2 e.2) (biTriples m.ngrams) g).symm
  have e3 : ∀ g : NgramIndex,
      (triQuads m.ngrams).foldl
        (fun g t => addNgramWithCount g [t.1, t.2.1, t.2.2.1] 3 t.2.2.2) g =
      ((triQuads m.ngrams).map (fun t => ([t.1, t.2.1, t.2.2.1], t.2.2.2))).foldl
        (fun g e => addNgramWithCount g e.1 3 e.2) g :=
    fun g => (List.foldl_map (fun t : Nat × Nat × Nat × Nat => ([t.1, t.2.1, t.2.2.1], t.2.2.2))
      (fun g e => addNgramWithCount g e.1 3 e.2) (triQuads m.ngrams) g).symm
  rw [e1, e2, e3, uniPairs_paths, biTriples_paths, triQuads_paths]
  have hm1 : ((pathsWithCounts 1 m.ngrams.rootChildren).foldl
      (fun g e => addNgramWithCount g e.1 1 e.2) (createNgramIndex 3)).maxN = 3 :=
    foldl_add_maxN (fun (e : List Nat × Nat) => e.1) 1 (fun e => e.2) _ _
  have hm2 : ((pathsWithCounts 2 m.ngrams.rootChildren).foldl
      (fun g e => addNgramWithCount g e.1 2 e.2)
      ((pathsWithCounts 1 m.ngrams.rootChildren).foldl
        (fun g e => addNgramWithCount g e.1 1 e.2) (createNgramIndex 3))).maxN = 3 := by
    have h0 : ((pathsWithCounts 2 m.ngrams.rootChildren).foldl
        (fun g e => addNgramWithCount g e.1 2 e.2)
        ((pathsWithCounts 1 m.ngrams.rootChildren).foldl
          (fun g e => addNgramWithCount g e.1 1 e.2) (createNgramIndex 3))).maxN =
        ((pathsWithCounts 1 m.ngrams.rootChildren).foldl
          (fun g e => addNgramWithCount g e.1 1 e.2) (createNgramIndex 3)).maxN :=
      foldl_add_maxN (fun (e : List Nat × Nat) => e.1) 2 (fun e => e.2) _ _
    rw [h0, hm1]
  rw [getPath_foldAdd 3 (by omega) (by omega) (pathsWithCounts 3 m.ngrams.rootChildren)
      _ hm2 (pathsWithCounts_length 3 m.ngrams.rootChildren) p hp,
    getPath_foldAdd 2 (by omega) (by omega) (pathsWithCounts 2 m.ngrams.rootChildren)
      _ hm1 (pathsWithCounts_length 2 m.ngrams.rootChildren) p hp,
    getPath_foldAdd 1 (by omega) (by omega) (pathsWithCounts 1 m.ngrams.rootChildren)
      _ rfl (pathsWithCounts_length 1 m.ngrams.rootChildren) p hp]
  have hz : getPath (createNgramIndex 3).rootChildren p = 0 := getPath_nil_chain p
  rw [hz]
  have hlp : p.length = 1 ∨ p.length = 2 ∨ p.length = 3 := by
    have hpos := List.length_pos.mpr hp
    omega
  rcases hlp with h | h | h
  · rw [sum_paths_eq_getPath 1 _ p h (wfTo_mono 1 _ (wfTo_mono 2 _ hwf)),
      filter_paths_other_depth 2 _ p (by omega),
      filter_paths_other_depth 3 _ p (by omega)]
    simp
  · rw [sum_paths_eq_getPath 2 _ p h (wfTo_mono 2 _ hwf),
      filter_paths_other_depth 1 _ p (by omega),
      filter_paths_other_depth 3 _ p (by omega)]
    simp
  · rw [sum_paths_eq_getPath 3 _ p h hwf,
      filter_paths_other_depth 1 _ p (by omega),
      filter_paths_other_depth 2 _ p (by omega)]
    simp

/-- C1: saving a `maxN = 3` model with `saveModel` and loading the
four files into a freshly created model restores the vocabulary size,
`totalTokens`, and every n-gram count of order `1..3` (hence in
particular every n-gram observed in training).  Hypotheses: the model
is a 3-gram model, sibling token ids in its trie are distinct (as
`addNgram` guarantees), and all stored quantities fit the on-disk
`u16`/`u32`/`u64` fields. -/
theorem C1_save_load_roundtrip (m : LMModel)
    (hmax : m.ngrams.maxN = 3)
    (hwf : wfTo 3 m.ngrams.rootChildren = true)
    (hb : boundsOk m = true) :
    vocabSize (loadModel (createLMModel 3) (saveModelBytes m).1 (saveModelBytes m).2.1
      (saveModelBytes m).2.2.1 (saveModelBytes m).2.2.2) = vocabSize m ∧
    (loadModel (createLMModel 3) (saveModelBytes m).1 (saveModelBytes m).2.1
      (saveModelBytes m).2.2.1 (saveModelBytes m).2.2.2).totalTokens = m.totalTokens ∧
    ∀ (ids : List Nat) (n : Nat), 1 ≤ n → n ≤ 3 →
      getNgramCount (loadModel (createLMModel 3) (saveModelBytes m).1
        (saveModelBytes m).2.1 (saveModelBytes m).2.2.1
        (saveModelBytes m).2.2.2).ngrams ids n = getNgramCount m.ngrams ids n := by
  have hbv := hb
  unfold boundsOk at hbv
  simp only [Bool.and_eq_true, List.all_eq_true, decide_eq_true_eq] at hbv
  obtain ⟨⟨⟨⟨⟨⟨htok, hvsz⟩, htt⟩, hnodes⟩, hL1⟩, hL2⟩, hL3⟩ := hbv
  rw [loadModel_save m htt hnodes hL1 hL2 hL3]
  refine ⟨?_, rfl, ?_⟩
  · show (loadVocabulary (saveVocabBytes m.vocab)).idToToken.length =
      m.vocab.idToToken.length
    rw [loadVocabulary_save m.vocab htok hvsz]
  · intro ids n h1 h3
    show getNgramCount ((triQuads m.ngrams).foldl
        (fun g t => addNgramWithCount g [t.1, t.2.1, t.2.2.1] 3 t.2.2.2)
      ((biTriples m.ngrams).foldl (fun g t => addNgramWithCount g [t.1, t.2.1] 2 t.2.2)
      ((uniPairs m.ngrams).foldl (fun g q => addNgramWithCount g [q.1] 1 q.2)
        (createNgramIndex 3)))) ids n = getNgramCount m.ngrams ids n
    unfold getNgramCount
    rw [fold3_maxN m, hmax]
    split
    · rfl
    · rename_i hcnd
      have hlen : ¬ ids.length < n := by
        simp only [Bool.or_eq_true, decide_eq_true_eq, not_or] at hcnd
        exact hcnd.2
      have htk : (ids.take n).length = n := by
        rw [List.length_take]
        omega
      exact loaded_root_getPath m hwf (ids.take n)
        (by
          intro h0
          rw [h0] at htk
          simp at htk
          omega)
        (by omega)

/-- Witness for C1: the trained two-line model `mC2` satisfies the
hypotheses, and its save/load round trip restores all counts. -/
theorem C1_save_load_roundtrip_witness :
    mC2.ngrams.maxN = 3 ∧ wfTo 3 mC2.ngrams.rootChildren = true ∧
    boundsOk mC2 = true ∧
    (vocabSize (loadModel (createLMModel 3) (saveModelBytes mC2).1
        (saveModelBytes mC2).2.1 (saveModelBytes mC2).2.2.1
        (saveModelBytes mC2).2.2.2) = vocabSize mC2 ∧
      (loadModel (createLMModel 3) (saveModelBytes mC2).1 (saveModelBytes mC2).2.1
        (saveModelBytes mC2).2.2.1 (saveModelBytes mC2).2.2.2).totalTokens =
        mC2.totalTokens ∧
      ∀ (ids : List Nat) (n : Nat), 1 ≤ n → n ≤ 3 →
        getNgramCount (loadModel (createLMModel 3) (saveModelBytes mC2).1
          (saveModelBytes mC2).2.1 (saveModelBytes mC2).2.2.1
          (saveModelBytes mC2).2.2.2).ngrams ids n = getNgramCount mC2.ngrams ids n) :=
  ⟨by decide, by decide, by decide,
    C1_save_load_roundtrip mC2 (by decide) (by decide) (by decide)⟩

end Cevia

